import Mathlib

/-!
Verification of the dotprompt format engine (`src/dotprompt/parse.py`,
`models.py`, `validators.py`) against its natural-language specification.
Strings are modelled as lists of characters; Python regular-expression
operations are modelled by equivalent deterministic scans.
-/

set_option maxRecDepth 4000

abbrev Str := List Char

/-- Python `str.strip()` whitespace (ASCII subset, matching the inputs
handled here). -/
def pyWS (c : Char) : Bool :=
  c = ' ' || c = '\t' || c = '\n' || c = '\r' || c = '\x0b' || c = '\x0c'

def lstrip (s : Str) : Str := s.dropWhile pyWS

def rstrip (s : Str) : Str := (s.reverse.dropWhile pyWS).reverse

def strip (s : Str) : Str := rstrip (lstrip s)

/-- Python `str.split(sep)` for a one-character separator. -/
def splitCh (sep : Char) : Str → List Str
  | [] => [[]]
  | c :: t =>
    if c = sep then [] :: splitCh sep t
    else
      match splitCh sep t with
      | [] => [[c]]
      | h :: r => (c :: h) :: r

def joinNL (ls : List Str) : Str := (ls.intersperse ['\n']).flatten

/-- Python `str.splitlines()` for newline-separated text. -/
def pySplitlines (s : Str) : List Str :=
  if s = [] then []
  else if s.getLast? = some '\n' then (splitCh '\n' s).dropLast
  else splitCh '\n' s

/-- Python `\w` on the ASCII range. -/
def wordChar (c : Char) : Bool := c.isAlphanum || c = '_'

theorem dropWhile_len_le (p : Char → Bool) (t : List Char) :
    (t.dropWhile p).length ≤ t.length :=
  List.Sublist.length_le (List.dropWhile_sublist p)

theorem tail_len_le (t : List Char) : t.tail.length ≤ t.length := by
  cases t <;> simp

/-- Splits a string at its first `%`: `pctSplit s = some (a, b)` iff
`s = a ++ '%' :: b` with `a` free of `%`. -/
def pctSplit : Str → Option (Str × Str)
  | [] => none
  | c :: t =>
    if c = '%' then some ([], t)
    else (pctSplit t).map (fun p => (c :: p.1, p.2))

theorem pctSplit_length {s : Str} {a b : Str} (h : pctSplit s = some (a, b)) :
    a.length + 1 + b.length = s.length := by
  induction s generalizing a b with
  | nil => simp [pctSplit] at h
  | cons c t ih =>
    rw [pctSplit] at h
    split at h
    · simp at h
      obtain ⟨h1, h2⟩ := h
      subst h1; subst h2
      simp only [List.length_nil, List.length_cons]
      omega
    · cases hm : pctSplit t with
      | none => rw [hm] at h; simp at h
      | some p =>
        rw [hm] at h
        simp at h
        obtain ⟨h1, h2⟩ := h
        subst h1; subst h2
        have := ih (a := p.1) (b := p.2) (by rw [hm])
        simp only [List.length_cons]
        omega

theorem pctSplit_eq_append {s : Str} {a b : Str} (h : pctSplit s = some (a, b)) :
    s = a ++ '%' :: b := by
  induction s generalizing a b with
  | nil => simp [pctSplit] at h
  | cons c t ih =>
    rw [pctSplit] at h
    split at h
    · next hc =>
      simp at h
      obtain ⟨h1, h2⟩ := h
      subst h1; subst h2
      simp [hc]
    · cases hm : pctSplit t with
      | none => rw [hm] at h; simp at h
      | some p =>
        rw [hm] at h
        simp at h
        obtain ⟨h1, h2⟩ := h
        subst h1; subst h2
        simp [ih (a := p.1) (b := p.2) (by rw [hm])]

/-- `re.sub(r'\(%[^%]*?%\)', '', s, flags=re.DOTALL)` from
`models.py` (fuelled form): a span opens at `(%`, runs to the first
later `%`, which must be followed immediately by `)`. -/
def stripGo : Nat → Str → Str
  | 0, _ => []
  | _ + 1, [] => []
  | f + 1, c :: t =>
    if c = '(' ∧ t.head? = some '%' then
      match pctSplit t.tail with
      | some (_, ')' :: r) => stripGo f r
      | _ => c :: stripGo f t
    else c :: stripGo f t

def stripComments (s : Str) : Str := stripGo s.length s

/-- Locates the first `}}` of a string, failing at a newline:
`bbSplit s = some (g, r)` iff `s = g ++ '}' :: '}' :: r` with `g` free
of `}}` pairs and newlines.  Models the lookahead of the non-greedy,
non-DOTALL `{{(.*?)}}`. -/
def bbSplit : Str → Option (Str × Str)
  | [] => none
  | c :: t =>
    if c = '}' ∧ t.head? = some '}' then some ([], t.tail)
    else if c = '\n' then none
    else (bbSplit t).map (fun p => (c :: p.1, p.2))

theorem bbSplit_length {s : Str} {a b : Str} (h : bbSplit s = some (a, b)) :
    a.length + 2 + b.length = s.length := by
  induction s generalizing a b with
  | nil => simp [bbSplit] at h
  | cons c t ih =>
    rw [bbSplit] at h
    split at h
    · next hc =>
      simp at h
      obtain ⟨h1, h2⟩ := h
      subst h1; subst h2
      cases t with
      | nil => simp at hc
      | cons d u =>
        simp only [List.length_nil, List.length_cons, List.tail_cons]
        omega
    · split at h
      · simp at h
      · cases hm : bbSplit t with
        | none => rw [hm] at h; simp at h
        | some p =>
          rw [hm] at h
          simp at h
          obtain ⟨h1, h2⟩ := h
          subst h1; subst h2
          have := ih (a := p.1) (b := p.2) (by rw [hm])
          simp only [List.length_cons]
          omega

/-- `re.sub(r'{{(.*?)}}', r'{\1}', s)` from `models.py` (fuelled form). -/
def normGo : Nat → Str → Str
  | 0, _ => []
  | _ + 1, [] => []
  | f + 1, c :: t =>
    if c = '{' ∧ t.head? = some '{' then
      match bbSplit t.tail with
      | some (g, r) => '{' :: (g ++ '}' :: normGo f r)
      | none => c :: normGo f t
    else c :: normGo f t

def normB (s : Str) : Str := normGo s.length s

/-- `re.findall(r'\{(\w+)\}', s)` from `models.py` (fuelled form). -/
def scanGo : Nat → Str → List Str
  | 0, _ => []
  | _ + 1, [] => []
  | f + 1, c :: t =>
    if c = '{' then
      if (t.takeWhile wordChar) ≠ [] ∧ (t.dropWhile wordChar).head? = some '}' then
        t.takeWhile wordChar :: scanGo f (t.dropWhile wordChar).tail
      else scanGo f t
    else scanGo f t

def scanFV (s : Str) : List Str := scanGo s.length s

/-- `re.sub(r'\{(\w+)\}', repl, s)` from `models.py` (fuelled form),
where the replacement keeps the literal `{name}` when `fn name = none`. -/
def substGo (fn : Str → Option Str) : Nat → Str → Str
  | 0, _ => []
  | _ + 1, [] => []
  | f + 1, c :: t =>
    if c = '{' then
      if (t.takeWhile wordChar) ≠ [] ∧ (t.dropWhile wordChar).head? = some '}' then
        (match fn (t.takeWhile wordChar) with
         | some v => v
         | none => '{' :: (t.takeWhile wordChar ++ ['}'])) ++
          substGo fn f (t.dropWhile wordChar).tail
      else c :: substGo fn f t
    else c :: substGo fn f t

def substFV (fn : Str → Option Str) (s : Str) : Str := substGo fn s.length s

/-- Token view of a template string: either a literal character or a
`{name}` placeholder occurrence. -/
inductive Tok where
  | lit (c : Char)
  | var (n : Str)
deriving DecidableEq

def tokGo : Nat → Str → List Tok
  | 0, _ => []
  | _ + 1, [] => []
  | f + 1, c :: t =>
    if c = '{' then
      if (t.takeWhile wordChar) ≠ [] ∧ (t.dropWhile wordChar).head? = some '}' then
        Tok.var (t.takeWhile wordChar) :: tokGo f (t.dropWhile wordChar).tail
      else Tok.lit c :: tokGo f t
    else Tok.lit c :: tokGo f t

def tokenize (s : Str) : List Tok := tokGo s.length s

def renderTok (fn : Str → Option Str) : Tok → Str
  | Tok.lit c => [c]
  | Tok.var n =>
    match fn n with
    | some v => v
    | none => '{' :: (n ++ ['}'])

/-- Collapses every maximal run of `{` (resp. `}`) to a single brace,
leaving all other characters untouched. -/
def collGo : Nat → Str → Str
  | 0, _ => []
  | _ + 1, [] => []
  | f + 1, c :: t =>
    if c = '{' ∨ c = '}' then c :: collGo f (t.dropWhile (· = c))
    else c :: collGo f t

def collapse (s : Str) : Str := collGo s.length s

/-! ## The dotprompt document model and parser (`parse.py`, `models.py`) -/

inductive Sec where
  | metadata
  | defaults
  | content
deriving DecidableEq

def kwOf : Sec → Str
  | Sec.metadata => ['M', 'E', 'T', 'A', 'D', 'A', 'T', 'A']
  | Sec.defaults => ['D', 'E', 'F', 'A', 'U', 'L', 'T', 'S']
  | Sec.content => ['C', 'O', 'N', 'T', 'E', 'N', 'T']

/-- Case-insensitive literal match; returns the rest of the input. -/
def matchCI : Str → Str → Option Str
  | [], s => some s
  | _, [] => none
  | k :: ks, c :: cs => if c.toLower = k.toLower then matchCI ks cs else none

def tryKw (sec : Sec) (r : Str) : Option Sec :=
  (matchCI (kwOf sec) r).bind
    (fun r2 => if r2.dropWhile pyWS = [']'] then some sec else none)

/-- `re.fullmatch(r'\[\s*(METADATA|DEFAULTS|CONTENT)\s*\]', line, re.IGNORECASE)`
(`parse.py`). -/
def headerFull? (l : Str) : Option Sec :=
  match l with
  | '[' :: r =>
    let r1 := r.dropWhile pyWS
    (tryKw Sec.metadata r1 <|> tryKw Sec.defaults r1) <|> tryKw Sec.content r1
  | _ => none

def tryKwPre (sec : Sec) (r : Str) : Option Sec :=
  (matchCI (kwOf sec) r).bind
    (fun r2 => if (r2.dropWhile pyWS).head? = some ']' then some sec else none)

/-- `SECTION_PATTERN.match(line)` from `validators.py` — anchored at the
start only, arbitrary trailing text allowed. -/
def headerPre? (l : Str) : Option Sec :=
  match l with
  | '[' :: r =>
    let r1 := r.dropWhile pyWS
    (tryKwPre Sec.metadata r1 <|> tryKwPre Sec.defaults r1) <|> tryKwPre Sec.content r1
  | _ => none

def alk {κ α : Type} [DecidableEq κ] : List (κ × α) → κ → Option α
  | [], _ => none
  | (k, v) :: t, q => if k = q then some v else alk t q

def upsert {κ α : Type} [DecidableEq κ] : List (κ × α) → κ → α → List (κ × α)
  | [], k, v => [(k, v)]
  | (k0, v0) :: t, k, v =>
    if k0 = k then (k0, v) :: t else (k0, v0) :: upsert t k v

/-- Single apostrophe character (U+0027), used inside error messages. -/
def sqCh : Char := Char.ofNat 39

def emptyTextMsg : Str := (r"El texto del prompt no puede estar vacío").toList

def orderMsg : Str :=
  (r"Incorrect section order: [DEFAULTS] must appear before [CONTENT]").toList

def emptyMetaMsg (i : Nat) (k : Str) : Str :=
  (r"Linea ").toList ++ Nat.toDigits 10 (i + 1) ++ (r": Metadata ").toList ++
    sqCh :: '@' :: k ++ sqCh :: (r" no puede tener valor vacío").toList

def contentMissingMsg : Str := (r"Falta o está vacía la sección [CONTENT]").toList

def fvKey : Str := (r"format_version").toList

def fvMissingMsg : Str := (r"Falta @format_version en [METADATA]").toList

/-- First pass of `PromptParser.__init__`: record the line index of every
section header (last occurrence wins), skipping blank and `#` lines. -/
def posScanP : Nat → List Str → List (Sec × Nat) → List (Sec × Nat)
  | _, [], acc => acc
  | i, raw :: ls, acc =>
    let line := strip raw
    if line = [] ∨ line.head? = some '#' then posScanP (i + 1) ls acc
    else
      match headerFull? line with
      | some s => posScanP (i + 1) ls (upsert acc s i)
      | none => posScanP (i + 1) ls acc

def sectionPositionsP (lines : List Str) : List (Sec × Nat) := posScanP 0 lines []

def orderBad (pos : List (Sec × Nat)) : Bool :=
  match alk pos Sec.content, alk pos Sec.defaults with
  | some c, some d => d > c
  | _, _ => false

def isCommentWrapped (l : Str) : Bool :=
  ['(', '%'].isPrefixOf l && ['%', ')'].isSuffixOf l

/-- `re.compile(r'\(%[^%]*?%\)$')` applied to a whole (newline-free) line:
does the suffix starting here form a span reaching the end of the line? -/
def endSpan (s : Str) : Bool :=
  if s.head? = some '(' ∧ s.tail.head? = some '%' then
    match pctSplit s.tail.tail with
    | some (_, b) => b = [')']
    | none => false
  else false

/-- `comment_pattern.sub('', line)` from `parse.py`: drop the leftmost
trailing `(% ... %)` span that terminates exactly at the end of the line. -/
def commentSubEnd : Str → Str
  | [] => []
  | c :: t => if endSpan (c :: t) then [] else c :: commentSubEnd t

/-- Mutable state of the second parsing pass. -/
structure PSt where
  sec : Option Sec
  key : Option Str
  meta : List (Str × Str)
  defs : List (Str × Str)
  cont : List Str
deriving DecidableEq

def getMap (st : PSt) (isMeta : Bool) : List (Str × Str) :=
  if isMeta then st.meta else st.defs

def setMap (st : PSt) (isMeta : Bool) (m : List (Str × Str)) : PSt :=
  if isMeta then { st with meta := m } else { st with defs := m }

/-- Python `line.split(' ', 1)`. -/
def split1Sp : Str → Str × Option Str
  | [] => ([], none)
  | c :: t =>
    if c = ' ' then ([], some t)
    else (c :: (split1Sp t).1, (split1Sp t).2)

/-- The key of a `@... > ...` multiline opener: `line.split('>', 1)[0][1:].strip()`. -/
def mlKey (line : Str) : Str := strip ((line.takeWhile (fun c => c ≠ '>')).drop 1)

/-- The key of a single-line `@key value` field. -/
def slKey (line : Str) : Str := strip (split1Sp (line.drop 1)).1

/-- The value of a single-line `@key value` field. -/
def slVal (line : Str) : Str :=
  match (split1Sp (line.drop 1)).2 with
  | some v0 => strip v0
  | none => []

/-- Handling of a stripped, non-blank, non-header line inside the
`metadata` or `defaults` section (`parse.py`, lines 42-56). -/
def metaDefStep (isMeta : Bool) (i : Nat) (line : Str) (st : PSt) :
    Except Str PSt :=
  if line.head? = some '@' then
    if '>' ∈ line then
      Except.ok (setMap { st with key := some (mlKey line) } isMeta
        (upsert (getMap st isMeta) (mlKey line) []))
    else
      if isMeta ∧ slVal line = [] then Except.error (emptyMetaMsg i (slKey line))
      else Except.ok (setMap st isMeta
        (upsert (getMap st isMeta) (slKey line) (slVal line)))
  else
    match st.key with
    | some k =>
      if k = [] then Except.ok st
      else
        Except.ok (setMap st isMeta (upsert (getMap st isMeta) k
          (((alk (getMap st isMeta) k).getD []) ++ '\n' :: line)))
    | none => Except.ok st

/-- One iteration of the second pass of `PromptParser.__init__`. -/
def pstep (i : Nat) (raw : Str) (st : PSt) : Except Str PSt :=
  if strip raw = [] ∨ isCommentWrapped (strip raw) then Except.ok st
  else
    match headerFull? (strip raw) with
    | some s => Except.ok { st with sec := some s, key := none }
    | none =>
      match st.sec with
      | some Sec.metadata => metaDefStep true i (strip raw) st
      | some Sec.defaults => metaDefStep false i (strip raw) st
      | some Sec.content =>
        if strip (commentSubEnd (strip raw)) = [] then Except.ok st
        else Except.ok { st with cont := st.cont ++ [strip (commentSubEnd (strip raw))] }
      | none => Except.ok st

def prun : Nat → List Str → PSt → Except Str PSt
  | _, [], st => Except.ok st
  | i, l :: ls, st =>
    match pstep i l st with
    | Except.ok st2 => prun (i + 1) ls st2
    | Except.error e => Except.error e

structure Doc where
  metadata : List (Str × Str)
  defaults : List (Str × Str)
  content : Str
deriving DecidableEq

def st0 : PSt := ⟨none, none, [], [], []⟩

/-- `PromptParser.__init__` (`parse.py`). -/
def parse (text : Str) : Except Str Doc :=
  if strip text = [] then Except.error emptyTextMsg
  else if orderBad (sectionPositionsP (pySplitlines text)) then Except.error orderMsg
  else
    match prun 0 (pySplitlines text) st0 with
    | Except.error e => Except.error e
    | Except.ok st =>
      if st.cont = [] then Except.error contentMissingMsg
      else if (alk st.meta fvKey).isNone then Except.error fvMissingMsg
      else Except.ok ⟨st.meta, st.defs, joinNL st.cont⟩

/-! ## Serialization (`models.py`: `text` / `_serialize_section`) -/

def hdrMETA : Str := ['[', 'M', 'E', 'T', 'A', 'D', 'A', 'T', 'A', ']']

def hdrDEF : Str := ['[', 'D', 'E', 'F', 'A', 'U', 'L', 'T', 'S', ']']

def hdrCONT : Str := ['[', 'C', 'O', 'N', 'T', 'E', 'N', 'T', ']']

/-- Lines emitted by `_serialize_section` for one field. -/
def serEntryLines (k v : Str) : List Str :=
  if '\n' ∈ v then
    ('@' :: (k ++ [' ', '>'])) :: (splitCh '\n' v).map (fun l => ' ' :: ' ' :: l)
  else ['@' :: (k ++ ' ' :: v)]

def serLines (m : List (Str × Str)) : List Str :=
  (m.map (fun e => serEntryLines e.1 e.2)).flatten

def serSection (m : List (Str × Str)) : Str := joinNL (serLines m)

/-- `PromptObject.text` / `to_text()` (`models.py`). -/
def toText (D : Doc) : Str :=
  joinNL ([hdrMETA, serSection D.metadata] ++
    (if D.defaults = [] then [] else ['\n' :: hdrDEF, serSection D.defaults]) ++
    ['\n' :: hdrCONT, D.content])

/-! ## Validator section extraction (`validators.py`) -/

/-- `PromptValidator._calculate_section_positions`: scans every raw line
(no blank/comment skipping), prefix-matching the header pattern on the
stripped line; the last occurrence of a header wins. -/
def posScanV : Nat → List Str → List (Sec × Nat) → List (Sec × Nat)
  | _, [], acc => acc
  | i, raw :: ls, acc =>
    match headerPre? (strip raw) with
    | some s => posScanV (i + 1) ls (upsert acc s i)
    | none => posScanV (i + 1) ls acc

def sectionPositionsV (lines : List Str) : List (Sec × Nat) := posScanV 0 lines []

/-- `PromptValidator._extract_section`. -/
def extractSection (lines : List Str) (name : Sec) : List Str :=
  match alk (sectionPositionsV lines) name with
  | none => []
  | some p =>
    let start := p + 1
    let endL := (sectionPositionsV lines).foldl
      (fun acc e => if e.2 > start ∧ e.2 < acc then e.2 else acc) lines.length
    (lines.drop start).take (endL - start)

/-- The boundary rule the extraction actually implements: the owned range
ends at the smallest recorded header position that is strictly greater
than `headerPos + 1` (a header on the line immediately after the section
header is not a boundary), or at the end of input. -/
def extractSectionSpec (lines : List Str) (name : Sec) : List Str :=
  match alk (sectionPositionsV lines) name with
  | none => []
  | some p =>
    let start := p + 1
    let endL := (((sectionPositionsV lines).map Prod.snd).filter
      (fun q => start < q)).foldr min lines.length
    (lines.drop start).take (endL - start)

/-! ## Substitution engine (`models.py`: `process`, `get_variables_info`) -/

/-- The comment-stripped, `{{}}`-normalized view of the content. -/
def pipelineOf (content : Str) : Str := normB (stripComments content)

/-- The derived variable list (distinct placeholder names). -/
def variablesOf (content : Str) : List Str := (scanFV (pipelineOf content)).dedup

/-- Lexicographic comparison of strings by character code, matching
Python `sorted` on `str`. -/
def strLe : Str → Str → Bool
  | [], _ => true
  | _ :: _, [] => false
  | a :: as, b :: bs => if a = b then strLe as bs else decide (a < b)

def sortIns (x : Str) : List Str → List Str
  | [] => [x]
  | y :: t => if strLe x y then x :: y :: t else y :: sortIns x t

def sortStr : List Str → List Str
  | [] => []
  | x :: t => sortIns x (sortStr t)

def joinComma (l : List Str) : Str := (l.intersperse [',', ' ']).flatten

def extraMsg : Str :=
  (r"Los siguientes kwargs no corresponden a variables: ").toList

/-- `values[key] = kwargs.get(key, self.defaults.get(key))`: an explicit
`None` argument (modelled as `some none`) wins over the default. -/
def resolveFn (kwargs : List (Str × Option Str)) (defaults : List (Str × Str))
    (n : Str) : Option Str :=
  match alk kwargs n with
  | some o => o
  | none => alk defaults n

/-- The offending-kwargs list: `sorted(set(kwargs.keys()) - variables)`. -/
def extraOf (kwargs : List (Str × Option Str)) (vars : List Str) : List Str :=
  sortStr (((kwargs.map Prod.fst).filter (fun k => ¬ k ∈ vars)).dedup)

/-- `PromptObject.process` (`models.py`).  The substitution resolver is
total over names, which is faithful because the `values` dict is indexed
by exactly the names the replacement regex can produce. -/
def process (kwargs : List (Str × Option Str)) (D : Doc) : Except Str Str :=
  if extraOf kwargs (variablesOf D.content) ≠ [] then
    Except.error (extraMsg ++ joinComma (extraOf kwargs (variablesOf D.content)))
  else Except.ok (substFV (fun n => resolveFn kwargs D.defaults n)
    (pipelineOf D.content))

deriving instance DecidableEq for Except

/-! ## Fuel adequacy and unfolding equations for the scanners -/

theorem stripGo_fuel : ∀ (f1 f2 : Nat) (s : Str), s.length ≤ f1 → s.length ≤ f2 →
    stripGo f1 s = stripGo f2 s := by
  intro f1
  induction f1 with
  | zero =>
    intro f2 s h1 _
    have : s = [] := List.eq_nil_of_length_eq_zero (Nat.le_zero.mp h1)
    subst this
    cases f2 <;> rfl
  | succ g1 ih =>
    intro f2 s h1 h2
    cases s with
    | nil => cases f2 <;> rfl
    | cons c t =>
      cases f2 with
      | zero => simp at h2
      | succ g2 =>
        simp only [List.length_cons, Nat.add_le_add_iff_right] at h1 h2
        rw [stripGo, stripGo]
        split
        · cases hps : pctSplit t.tail with
          | none => simp [ih g2 t h1 h2]
          | some p =>
            obtain ⟨a, b⟩ := p
            cases b with
            | nil => simp [ih g2 t h1 h2]
            | cons d r =>
              have hr : r.length ≤ t.length := by
                have hps2 := pctSplit_length hps
                have htl := tail_len_le t
                simp only [List.length_cons] at hps2
                omega
              by_cases hd : d = ')'
              · subst hd
                simp [ih g2 r (le_trans hr h1) (le_trans hr h2)]
              · simp [hd, ih g2 t h1 h2]
        · simp [ih g2 t h1 h2]

theorem stripComments_nil : stripComments [] = [] := rfl

theorem stripComments_cons_span (t a r : Str)
    (h2 : t.head? = some '%') (hps : pctSplit t.tail = some (a, ')' :: r)) :
    stripComments ('(' :: t) = stripComments r := by
  have hr : r.length ≤ t.length := by
    have hps2 := pctSplit_length hps
    have htl := tail_len_le t
    simp only [List.length_cons] at hps2
    omega
  show stripGo (t.length + 1) ('(' :: t) = _
  rw [stripGo, if_pos (And.intro rfl h2), hps]
  show stripGo t.length r = stripComments r
  exact stripGo_fuel t.length r.length r hr (le_refl _)

theorem stripComments_cons_noopen (c : Char) (t : Str)
    (h : ¬(c = '(' ∧ t.head? = some '%')) :
    stripComments (c :: t) = c :: stripComments t := by
  show stripGo (t.length + 1) (c :: t) = _
  rw [stripGo, if_neg h]
  rfl

theorem stripComments_cons_nospan (t : Str) (h2 : t.head? = some '%')
    (hn : ∀ a r, pctSplit t.tail ≠ some (a, ')' :: r)) :
    stripComments ('(' :: t) = '(' :: stripComments t := by
  show stripGo (t.length + 1) ('(' :: t) = _
  rw [stripGo, if_pos (And.intro rfl h2)]
  cases hps : pctSplit t.tail with
  | none => rfl
  | some p =>
    obtain ⟨a, b⟩ := p
    cases b with
    | nil => rfl
    | cons d r =>
      split
      · next a2 r2 heq =>
        rw [heq] at hps
        exact absurd hps (hn a2 r2)
      · rfl

theorem normGo_fuel : ∀ (f1 f2 : Nat) (s : Str), s.length ≤ f1 → s.length ≤ f2 →
    normGo f1 s = normGo f2 s := by
  intro f1
  induction f1 with
  | zero =>
    intro f2 s h1 _
    have : s = [] := List.eq_nil_of_length_eq_zero (Nat.le_zero.mp h1)
    subst this
    cases f2 <;> rfl
  | succ g1 ih =>
    intro f2 s h1 h2
    cases s with
    | nil => cases f2 <;> rfl
    | cons c t =>
      cases f2 with
      | zero => simp at h2
      | succ g2 =>
        simp only [List.length_cons, Nat.add_le_add_iff_right] at h1 h2
        rw [normGo, normGo]
        split
        · cases hps : bbSplit t.tail with
          | none => simp [ih g2 t h1 h2]
          | some p =>
            obtain ⟨g, r⟩ := p
            have hr : r.length ≤ t.length := by
              have := bbSplit_length hps
              have := tail_len_le t
              omega
            simp [ih g2 r (le_trans hr h1) (le_trans hr h2)]
        · simp [ih g2 t h1 h2]

theorem normB_nil : normB [] = [] := rfl

theorem normB_cons (c : Char) (t : Str) :
    normB (c :: t) =
      if c = '{' ∧ t.head? = some '{' then
        match bbSplit t.tail with
        | some (g, r) => '{' :: (g ++ '}' :: normB r)
        | none => c :: normB t
      else c :: normB t := by
  show normGo (t.length + 1) (c :: t) = _
  rw [normGo]
  split
  · cases hps : bbSplit t.tail with
    | none => rfl
    | some p =>
      obtain ⟨g, r⟩ := p
      have hr : r.length ≤ t.length := by
        have := bbSplit_length hps
        have := tail_len_le t
        omega
      simp only [normB]
      rw [normGo_fuel t.length r.length r hr (le_refl _)]
  · rfl

theorem scanGo_fuel : ∀ (f1 f2 : Nat) (s : Str), s.length ≤ f1 → s.length ≤ f2 →
    scanGo f1 s = scanGo f2 s := by
  intro f1
  induction f1 with
  | zero =>
    intro f2 s h1 _
    have : s = [] := List.eq_nil_of_length_eq_zero (Nat.le_zero.mp h1)
    subst this
    cases f2 <;> rfl
  | succ g1 ih =>
    intro f2 s h1 h2
    cases s with
    | nil => cases f2 <;> rfl
    | cons c t =>
      cases f2 with
      | zero => simp at h2
      | succ g2 =>
        simp only [List.length_cons, Nat.add_le_add_iff_right] at h1 h2
        rw [scanGo, scanGo]
        have hrt : (t.dropWhile wordChar).tail.length ≤ t.length :=
          le_trans (tail_len_le _) (dropWhile_len_le _ _)
        split
        · split
          · simp [ih g2 _ (le_trans hrt h1) (le_trans hrt h2)]
          · simp [ih g2 t h1 h2]
        · simp [ih g2 t h1 h2]

theorem scanFV_nil : scanFV [] = [] := rfl

theorem scanFV_cons (c : Char) (t : Str) :
    scanFV (c :: t) =
      if c = '{' then
        if (t.takeWhile wordChar) ≠ [] ∧ (t.dropWhile wordChar).head? = some '}' then
          t.takeWhile wordChar :: scanFV (t.dropWhile wordChar).tail
        else scanFV t
      else scanFV t := by
  show scanGo (t.length + 1) (c :: t) = _
  rw [scanGo]
  have hrt : (t.dropWhile wordChar).tail.length ≤ t.length :=
    le_trans (tail_len_le _) (dropWhile_len_le _ _)
  split
  · split
    · simp only [scanFV]
      rw [scanGo_fuel t.length _ _ hrt (le_refl _)]
    · rfl
  · rfl

theorem substGo_fuel (fn : Str → Option Str) :
    ∀ (f1 f2 : Nat) (s : Str), s.length ≤ f1 → s.length ≤ f2 →
    substGo fn f1 s = substGo fn f2 s := by
  intro f1
  induction f1 with
  | zero =>
    intro f2 s h1 _
    have : s = [] := List.eq_nil_of_length_eq_zero (Nat.le_zero.mp h1)
    subst this
    cases f2 <;> rfl
  | succ g1 ih =>
    intro f2 s h1 h2
    cases s with
    | nil => cases f2 <;> rfl
    | cons c t =>
      cases f2 with
      | zero => simp at h2
      | succ g2 =>
        simp only [List.length_cons, Nat.add_le_add_iff_right] at h1 h2
        rw [substGo, substGo]
        have hrt : (t.dropWhile wordChar).tail.length ≤ t.length :=
          le_trans (tail_len_le _) (dropWhile_len_le _ _)
        split
        · split
          · simp [ih g2 _ (le_trans hrt h1) (le_trans hrt h2)]
          · simp [ih g2 t h1 h2]
        · simp [ih g2 t h1 h2]

theorem substFV_nil (fn : Str → Option Str) : substFV fn [] = [] := rfl

theorem substFV_cons (fn : Str → Option Str) (c : Char) (t : Str) :
    substFV fn (c :: t) =
      if c = '{' then
        if (t.takeWhile wordChar) ≠ [] ∧ (t.dropWhile wordChar).head? = some '}' then
          (match fn (t.takeWhile wordChar) with
           | some v => v
           | none => '{' :: (t.takeWhile wordChar ++ ['}'])) ++
            substFV fn (t.dropWhile wordChar).tail
        else c :: substFV fn t
      else c :: substFV fn t := by
  show substGo fn (t.length + 1) (c :: t) = _
  rw [substGo]
  have hrt : (t.dropWhile wordChar).tail.length ≤ t.length :=
    le_trans (tail_len_le _) (dropWhile_len_le _ _)
  split
  · split
    · simp only [substFV]
      rw [substGo_fuel fn t.length _ _ hrt (le_refl _)]
    · rfl
  · rfl

theorem tokGo_fuel : ∀ (f1 f2 : Nat) (s : Str), s.length ≤ f1 → s.length ≤ f2 →
    tokGo f1 s = tokGo f2 s := by
  intro f1
  induction f1 with
  | zero =>
    intro f2 s h1 _
    have : s = [] := List.eq_nil_of_length_eq_zero (Nat.le_zero.mp h1)
    subst this
    cases f2 <;> rfl
  | succ g1 ih =>
    intro f2 s h1 h2
    cases s with
    | nil => cases f2 <;> rfl
    | cons c t =>
      cases f2 with
      | zero => simp at h2
      | succ g2 =>
        simp only [List.length_cons, Nat.add_le_add_iff_right] at h1 h2
        rw [tokGo, tokGo]
        have hrt : (t.dropWhile wordChar).tail.length ≤ t.length :=
          le_trans (tail_len_le _) (dropWhile_len_le _ _)
        split
        · split
          · simp [ih g2 _ (le_trans hrt h1) (le_trans hrt h2)]
          · simp [ih g2 t h1 h2]
        · simp [ih g2 t h1 h2]

theorem tokenize_nil : tokenize [] = [] := rfl

theorem tokenize_cons (c : Char) (t : Str) :
    tokenize (c :: t) =
      if c = '{' then
        if (t.takeWhile wordChar) ≠ [] ∧ (t.dropWhile wordChar).head? = some '}' then
          Tok.var (t.takeWhile wordChar) :: tokenize (t.dropWhile wordChar).tail
        else Tok.lit c :: tokenize t
      else Tok.lit c :: tokenize t := by
  show tokGo (t.length + 1) (c :: t) = _
  rw [tokGo]
  have hrt : (t.dropWhile wordChar).tail.length ≤ t.length :=
    le_trans (tail_len_le _) (dropWhile_len_le _ _)
  split
  · split
    · simp only [tokenize]
      rw [tokGo_fuel t.length _ _ hrt (le_refl _)]
    · rfl
  · rfl

theorem collGo_fuel : ∀ (f1 f2 : Nat) (s : Str), s.length ≤ f1 → s.length ≤ f2 →
    collGo f1 s = collGo f2 s := by
  intro f1
  induction f1 with
  | zero =>
    intro f2 s h1 _
    have : s = [] := List.eq_nil_of_length_eq_zero (Nat.le_zero.mp h1)
    subst this
    cases f2 <;> rfl
  | succ g1 ih =>
    intro f2 s h1 h2
    cases s with
    | nil => cases f2 <;> rfl
    | cons c t =>
      cases f2 with
      | zero => simp at h2
      | succ g2 =>
        simp only [List.length_cons, Nat.add_le_add_iff_right] at h1 h2
        rw [collGo, collGo]
        have hrt : (t.dropWhile (· = c)).length ≤ t.length := dropWhile_len_le _ _
        split
        · simp [ih g2 _ (le_trans hrt h1) (le_trans hrt h2)]
        · simp [ih g2 t h1 h2]

theorem collapse_nil : collapse [] = [] := rfl

theorem collapse_cons (c : Char) (t : Str) :
    collapse (c :: t) =
      if c = '{' ∨ c = '}' then c :: collapse (t.dropWhile (· = c))
      else c :: collapse t := by
  show collGo (t.length + 1) (c :: t) = _
  rw [collGo]
  have hrt : (t.dropWhile (· = c)).length ≤ t.length := dropWhile_len_le _ _
  split
  · simp only [collapse]
    rw [collGo_fuel t.length _ _ hrt (le_refl _)]
  · rfl

/-! ## C2: section-order failures of `parse` -/

/-- Claim C2 (amended): `parse` enforces only the DEFAULTS-before-CONTENT
rule: when both headers are recorded and the DEFAULTS header position
exceeds the CONTENT header position, parsing fails with the
section-order error.  (The METADATA-related orderings are not checked by
`parse`; see the counterexample.) -/
theorem C2_parse_order_error (text : Str) (c d : Nat)
    (hne : strip text ≠ [])
    (hc : alk (sectionPositionsP (pySplitlines text)) Sec.content = some c)
    (hd : alk (sectionPositionsP (pySplitlines text)) Sec.defaults = some d)
    (hgt : c < d) :
    parse text = Except.error orderMsg := by
  have hob : orderBad (sectionPositionsP (pySplitlines text)) = true := by
    unfold orderBad
    rw [hc, hd]
    exact decide_eq_true hgt
  unfold parse
  rw [if_neg hne]
  show (if orderBad (sectionPositionsP (pySplitlines text)) then _ else _) = _
  rw [if_pos (by rw [hob])]

/-- Claim C2 (counterexample): a text with `[CONTENT]` before
`[METADATA]` parses successfully — `parse` does not fail with a
section-order error in that case. -/
theorem C2_counterexample :
    parse (("[CONTENT]\nhi\n[METADATA]\n@format_version 1").toList) =
      Except.ok ⟨[(("format_version").toList, ['1'])], [], ['h', 'i']⟩ := by
  decide

/-- Witness for `C2_parse_order_error` at a concrete input. -/
theorem C2_order_witness :
    parse (("[CONTENT]\nTest\n\n[DEFAULTS]\n@var val").toList) =
      Except.error orderMsg :=
  C2_parse_order_error (("[CONTENT]\nTest\n\n[DEFAULTS]\n@var val").toList)
    0 3 (by decide) (by decide) (by decide) (by decide)

/-! ## C9: the validator's section extraction -/

theorem foldr_min_exch (x y : Nat) (l : List Nat) :
    l.foldr min (min x y) = min x (l.foldr min y) := by
  induction l with
  | nil => rfl
  | cons a l2 ih =>
    simp only [List.foldr_cons, ih]
    rw [min_left_comm]

theorem foldEnd_eq_min (start init : Nat) (l : List (Sec × Nat)) :
    l.foldl (fun acc e => if e.2 > start ∧ e.2 < acc then e.2 else acc) init =
      ((l.map Prod.snd).filter (fun q => start < q)).foldr min init := by
  induction l generalizing init with
  | nil => rfl
  | cons e l2 ih =>
    simp only [List.foldl_cons, List.map_cons]
    by_cases hq : start < e.2
    · have hstep : (if e.2 > start ∧ e.2 < init then e.2 else init) = min init e.2 := by
        by_cases hlt : e.2 < init
        · rw [if_pos ⟨hq, hlt⟩, min_eq_right (le_of_lt hlt)]
        · rw [if_neg (by tauto), min_eq_left (le_of_not_lt hlt)]
      rw [hstep, ih]
      have : List.filter (fun q => decide (start < q)) (e.2 :: l2.map Prod.snd) =
          e.2 :: List.filter (fun q => decide (start < q)) (l2.map Prod.snd) := by
        simp [List.filter_cons, hq]
      rw [this]
      simp only [List.foldr_cons]
      rw [min_comm init e.2]
      exact foldr_min_exch e.2 init _
    · have hstep : (if e.2 > start ∧ e.2 < init then e.2 else init) = init := by
        rw [if_neg (by tauto)]
      rw [hstep, ih]
      have : List.filter (fun q => decide (start < q)) (e.2 :: l2.map Prod.snd) =
          List.filter (fun q => decide (start < q)) (l2.map Prod.snd) := by
        simp [List.filter_cons, hq]
      rw [this]

/-- Claim C9 (amended): the lines owned by section `S` are the lines
strictly after `S`'s header line and strictly before the smallest
recorded header position exceeding `headerPos + 1` (defaulting to the
end of input).  In particular a header on the line immediately after
`S`'s header is *not* treated as a boundary, so `S` then owns that
header line and everything up to the next later boundary, not zero
lines. -/
theorem C9_extract_eq_spec (lines : List Str) (name : Sec) :
    extractSection lines name = extractSectionSpec lines name := by
  unfold extractSection extractSectionSpec
  cases alk (sectionPositionsV lines) name with
  | none => rfl
  | some p =>
    simp only
    rw [foldEnd_eq_min]

/-- Claim C9 (counterexample): with `[CONTENT]` on the line immediately
after `[METADATA]`, the METADATA section extraction returns the
`[CONTENT]` header line and the line after it — not the empty list the
claim requires. -/
theorem C9_counterexample :
    extractSection [hdrMETA, hdrCONT, ['x']] Sec.metadata = [hdrCONT, ['x']] := by
  decide

/-! ## C8: malformed lines in METADATA/DEFAULTS do not abort `parse` -/

/-- Claim C8 (amended): a stripped, non-blank, non-comment,
non-header line that does not start with `@`, read while no multiline
key is open inside METADATA or DEFAULTS, is silently ignored: the parse
state is returned unchanged and no error is raised.  (Only the separate
validator reports such lines, as warnings.) -/
theorem C8_malformed_ignored (i : Nat) (raw : Str) (st : PSt)
    (hsec : st.sec = some Sec.metadata ∨ st.sec = some Sec.defaults)
    (hkey : st.key = none)
    (hline : ¬(strip raw = [] ∨ isCommentWrapped (strip raw)))
    (hhdr : headerFull? (strip raw) = none)
    (hat : (strip raw).head? ≠ some '@') :
    pstep i raw st = Except.ok st := by
  unfold pstep
  rw [if_neg hline, hhdr]
  have hmd : ∀ b, metaDefStep b i (strip raw) st = Except.ok st := by
    intro b
    unfold metaDefStep
    rw [if_neg hat, hkey]
  cases hsec with
  | inl h => rw [h]; exact hmd true
  | inr h => rw [h]; exact hmd false

def c8St : PSt := ⟨some Sec.metadata, none, [(("format_version").toList, ['1'])], [], []⟩

/-- Witness for `C8_malformed_ignored` at a concrete input. -/
theorem C8_witness : pstep 2 (("invalid line").toList) c8St = Except.ok c8St :=
  C8_malformed_ignored 2 (("invalid line").toList) c8St (Or.inl rfl) rfl
    (by decide) (by decide) (by decide)

/-- Claim C8 (counterexample): a METADATA section containing the
non-field line `invalid line` parses successfully; `parse` raises no
malformed-line error. -/
theorem C8_counterexample :
    parse (("[METADATA]\n@format_version 1\ninvalid line\n[CONTENT]\nx").toList) =
      Except.ok ⟨[(("format_version").toList, ['1'])], [], ['x']⟩ := by
  decide

/-! ## C7: multiline continuation lines are appended stripped -/

/-- Claim C7 (amended): a continuation line of an open multiline field
is appended to the field value as `\n` followed by the *stripped* line:
the source indentation of the continuation line is removed, not
preserved. -/
theorem C7_continuation_stripped (isMeta : Bool) (i : Nat) (raw : Str)
    (st : PSt) (k v : Str)
    (hsec : st.sec = some (if isMeta then Sec.metadata else Sec.defaults))
    (hkey : st.key = some k) (hk : k ≠ [])
    (hline : ¬(strip raw = [] ∨ isCommentWrapped (strip raw)))
    (hhdr : headerFull? (strip raw) = none)
    (hat : (strip raw).head? ≠ some '@')
    (hv : alk (getMap st isMeta) k = some v) :
    pstep i raw st = Except.ok (setMap st isMeta
      (upsert (getMap st isMeta) k (v ++ '\n' :: strip raw))) := by
  unfold pstep
  rw [if_neg hline, hhdr]
  cases isMeta with
  | true =>
    rw [hsec]
    show metaDefStep true i (strip raw) st = _
    unfold metaDefStep
    rw [if_neg hat, hkey]
    simp only [if_neg hk, hv, Option.getD_some]
  | false =>
    rw [hsec]
    show metaDefStep false i (strip raw) st = _
    unfold metaDefStep
    rw [if_neg hat, hkey]
    simp only [if_neg hk, hv, Option.getD_some]

def c7St : PSt :=
  ⟨some Sec.metadata, some ['k'], [(("format_version").toList, ['1']), (['k'], [])], [], []⟩

/-- Witness for `C7_continuation_stripped` at a concrete input: the
continuation line `  hello` (two leading spaces) extends the value of
`k` by `"\nhello"`, with the indentation stripped. -/
theorem C7_witness :
    pstep 3 (("  hello").toList) c7St = Except.ok (setMap c7St true
      (upsert (getMap c7St true) ['k'] ([] ++ '\n' :: strip (("  hello").toList)))) :=
  C7_continuation_stripped true 3 (("  hello").toList) c7St ['k'] []
    rfl rfl (by decide) (by decide) (by decide) (by decide) (by decide)

/-- Claim C7 (counterexample): parsing a multiline metadata field whose
continuation line is `  hello` yields the value `"\nhello"`, not the
claimed `"\n  hello"` with source indentation preserved. -/
theorem C7_counterexample :
    parse (("[METADATA]\n@format_version 1\n@k >\n  hello\n[CONTENT]\nx").toList) =
      Except.ok ⟨[(("format_version").toList, ['1']),
        (['k'], '\n' :: ("hello").toList)], [], ['x']⟩ := by
  decide

/-! ## C6: what parsing stores as content -/

theorem setMap_cont (st : PSt) (b : Bool) (m : List (Str × Str)) :
    (setMap st b m).cont = st.cont := by
  cases b <;> simp [setMap]

theorem setMap_sec (st : PSt) (b : Bool) (m : List (Str × Str)) :
    (setMap st b m).sec = st.sec := by
  cases b <;> simp [setMap]

theorem metaDefStep_ok_shape {b : Bool} {i : Nat} {line : Str} {st st' : PSt}
    (h : metaDefStep b i line st = Except.ok st') :
    st'.cont = st.cont ∧ st'.sec = st.sec := by
  unfold metaDefStep at h
  split at h
  · split at h
    · simp only [Except.ok.injEq] at h
      subst h
      exact ⟨setMap_cont _ _ _, setMap_sec _ _ _⟩
    · split at h
      · exact absurd h (by simp)
      · simp only [Except.ok.injEq] at h
        subst h
        exact ⟨setMap_cont _ _ _, setMap_sec _ _ _⟩
  · split at h
    · split at h
      · simp only [Except.ok.injEq] at h
        subst h
        exact ⟨rfl, rfl⟩
      · simp only [Except.ok.injEq] at h
        subst h
        exact ⟨setMap_cont _ _ _, setMap_sec _ _ _⟩
    · simp only [Except.ok.injEq] at h
      subst h
      exact ⟨rfl, rfl⟩

/-- The section in effect after the parser has looked at one raw line. -/
def nextSec (sec : Option Sec) (raw : Str) : Option Sec :=
  if strip raw = [] ∨ isCommentWrapped (strip raw) then sec
  else
    match headerFull? (strip raw) with
    | some s => some s
    | none => sec

/-- The content lines a single raw line contributes: inside the CONTENT
section, the stripped line with any trailing `(%...%)` span removed and
then re-stripped, kept only if non-empty. -/
def contribLine (sec : Option Sec) (raw : Str) : List Str :=
  if strip raw = [] ∨ isCommentWrapped (strip raw) then []
  else
    match headerFull? (strip raw) with
    | some _ => []
    | none =>
      if sec = some Sec.content then
        (if strip (commentSubEnd (strip raw)) = [] then []
         else [strip (commentSubEnd (strip raw))])
      else []

/-- The content lines collected by scanning a list of raw lines from a
given section state. -/
def contentScan (sec : Option Sec) : List Str → List Str
  | [] => []
  | raw :: ls => contribLine sec raw ++ contentScan (nextSec sec raw) ls

theorem pstep_ok_shape {i : Nat} {raw : Str} {st st' : PSt}
    (h : pstep i raw st = Except.ok st') :
    st'.cont = st.cont ++ contribLine st.sec raw ∧
      st'.sec = nextSec st.sec raw := by
  unfold pstep at h
  unfold contribLine nextSec
  split at h
  · next hskip =>
    simp only [Except.ok.injEq] at h
    subst h
    simp [hskip]
  · next hns =>
    cases hh : headerFull? (strip raw) with
    | some s =>
      rw [hh] at h
      simp only [Except.ok.injEq] at h
      subst h
      simp [hns, hh]
    | none =>
      rw [hh] at h
      rw [if_neg hns]
      cases hsec : st.sec with
      | none =>
        rw [hsec] at h
        simp only [Except.ok.injEq] at h
        subst h
        simp [hns, hsec]
      | some s =>
        rw [hsec] at h
        cases s with
        | metadata =>
          have hsh2 := metaDefStep_ok_shape h
          refine ⟨?_, ?_⟩
          · rw [hsh2.1]; simp
          · rw [hsh2.2, hsec]; simp [hns]
        | defaults =>
          have hsh2 := metaDefStep_ok_shape h
          refine ⟨?_, ?_⟩
          · rw [hsh2.1]; simp
          · rw [hsh2.2, hsec]; simp [hns]
        | content =>
          replace h : (if strip (commentSubEnd (strip raw)) = [] then Except.ok st
            else Except.ok ⟨some Sec.content, st.key, st.meta, st.defs,
              st.cont ++ [strip (commentSubEnd (strip raw))]⟩) =
              Except.ok st' := h
          by_cases hemp : strip (commentSubEnd (strip raw)) = []
          · rw [if_pos hemp] at h
            simp only [Except.ok.injEq] at h
            subst h
            simp [hemp, hns, hsec]
          · rw [if_neg hemp] at h
            simp only [Except.ok.injEq] at h
            subst h
            simp [hemp, hns, hsec]

theorem prun_cont : ∀ (ls : List Str) {i : Nat} {st st' : PSt},
    prun i ls st = Except.ok st' →
    st'.cont = st.cont ++ contentScan st.sec ls := by
  intro ls
  induction ls with
  | nil =>
    intro i st st' h
    rw [prun] at h
    simp only [Except.ok.injEq] at h
    subst h
    simp [contentScan]
  | cons raw ls2 ih =>
    intro i st st' h
    rw [prun] at h
    cases hp : pstep i raw st with
    | error e => rw [hp] at h; exact absurd h (by simp)
    | ok st2 =>
      rw [hp] at h
      have hsh := pstep_ok_shape hp
      rw [contentScan, ← hsh.2, ← List.append_assoc, ← hsh.1]
      exact ih h

/-- Claim C6 (amended): the stored content is the newline-join of the
processed content lines: each line owned by the CONTENT section is
stripped, a trailing `(%...%)` span (one ending exactly at the end of
the line, containing no `%`) is removed and the line re-stripped, and
lines that are blank, fully `(%...%)`-wrapped, or empty after this
processing are dropped.  Trailing inline comments are therefore removed
at parse time, not kept verbatim; only comments not at the end of a
line survive in the raw content. -/
theorem C6_content_characterization (text : Str) (D : Doc)
    (h : parse text = Except.ok D) :
    D.content = joinNL (contentScan none (pySplitlines text)) := by
  unfold parse at h
  split at h
  · exact absurd h (by simp)
  · split at h
    · exact absurd h (by simp)
    · cases hr : prun 0 (pySplitlines text) st0 with
      | error e => rw [hr] at h; exact absurd h (by simp)
      | ok st =>
        rw [hr] at h
        replace h : (if st.cont = [] then Except.error contentMissingMsg
          else if (alk st.meta fvKey).isNone then Except.error fvMissingMsg
          else Except.ok ⟨st.meta, st.defs, joinNL st.cont⟩) = Except.ok D := h
        split at h
        · exact absurd h (by simp)
        · split at h
          · exact absurd h (by simp)
          · injection h with h2
            have hc := prun_cont (pySplitlines text) hr
            subst h2
            show joinNL st.cont = _
            rw [hc]
            rfl

/-- Witness for `C6_content_characterization` at a concrete input. -/
theorem C6_witness :
    (Doc.mk [(("format_version").toList, ['1'])] [] (("hi").toList)).content =
      joinNL (contentScan none (pySplitlines
        (("[METADATA]\n@format_version 1\n[CONTENT]\nhi (%c%)").toList))) :=
  C6_content_characterization
    (("[METADATA]\n@format_version 1\n[CONTENT]\nhi (%c%)").toList)
    (Doc.mk [(("format_version").toList, ['1'])] [] (("hi").toList))
    (by decide)

/-- Claim C6 (counterexample): the content line `hi (%c%)` is stored as
`hi` — the trailing inline comment is removed during parsing, not
retained verbatim as the claim states. -/
theorem C6_counterexample :
    parse (("[METADATA]\n@format_version 1\n[CONTENT]\nhi (%c%)").toList) =
      Except.ok ⟨[(("format_version").toList, ['1'])], [], ("hi").toList⟩ := by
  decide

/-! ## C5, C4, C10: the substitution engine -/

theorem sortIns_ne_nil (x : Str) (l : List Str) : sortIns x l ≠ [] := by
  cases l with
  | nil => simp [sortIns]
  | cons y t =>
    rw [sortIns]
    split <;> simp

theorem sortStr_ne_nil {l : List Str} (h : l ≠ []) : sortStr l ≠ [] := by
  cases l with
  | nil => exact absurd rfl h
  | cons x t => exact sortIns_ne_nil x (sortStr t)

/-- Claim C5: if some kwargs key is not among the derived placeholders,
`process` fails with the error listing all offending keys (sorted,
deduplicated, comma-joined); being a pure function, it performs no
substitution and leaves the document unchanged. -/
theorem C5_unknown_kwargs (kwargs : List (Str × Option Str)) (D : Doc) (k : Str)
    (hk : k ∈ kwargs.map Prod.fst) (hnv : ¬ k ∈ variablesOf D.content) :
    process kwargs D =
      Except.error (extraMsg ++ joinComma (extraOf kwargs (variablesOf D.content))) := by
  have hmem : k ∈ ((kwargs.map Prod.fst).filter
      (fun q => ¬ q ∈ variablesOf D.content)).dedup := by
    rw [List.mem_dedup]
    exact List.mem_filter.mpr ⟨hk, by simpa using hnv⟩
  have hne : extraOf kwargs (variablesOf D.content) ≠ [] :=
    sortStr_ne_nil (List.ne_nil_of_mem hmem)
  unfold process
  rw [if_pos hne]

/-- Witness for `C5_unknown_kwargs` at a concrete input (the spec's
`badkey` example). -/
theorem C5_witness :
    process [(("badkey").toList, some ['z'])]
      (Doc.mk [(("format_version").toList, ("1.0").toList)]
        [(("var1").toList, ("default1").toList)]
        (("Values: {var1}, {var2}.").toList)) =
      Except.error (extraMsg ++ joinComma (extraOf
        [(("badkey").toList, some ['z'])]
        (variablesOf (("Values: {var1}, {var2}.").toList)))) :=
  C5_unknown_kwargs _ _ (("badkey").toList) (by decide) (by decide)

theorem substFV_eq_render (fn : Str → Option Str) :
    ∀ (n : Nat) (s : Str), s.length ≤ n →
    substFV fn s = ((tokenize s).map (renderTok fn)).flatten := by
  intro n
  induction n with
  | zero =>
    intro s hs
    have : s = [] := List.eq_nil_of_length_eq_zero (Nat.le_zero.mp hs)
    subst this
    rfl
  | succ m ih =>
    intro s hs
    cases s with
    | nil => rfl
    | cons c t =>
      simp only [List.length_cons, Nat.add_le_add_iff_right] at hs
      have hrt : (t.dropWhile wordChar).tail.length ≤ t.length :=
        le_trans (tail_len_le _) (dropWhile_len_le _ _)
      rw [substFV_cons, tokenize_cons]
      split
      · split
        · simp only [List.map_cons, List.flatten_cons, renderTok]
          rw [ih _ (le_trans hrt hs)]
        · simp only [List.map_cons, List.flatten_cons, renderTok]
          rw [ih t hs]
          rfl
      · simp only [List.map_cons, List.flatten_cons, renderTok]
        rw [ih t hs]
        rfl

/-- Claim C4: with every kwargs key a placeholder, `process` succeeds
and renders the comment-stripped, `{{}}`-normalized content token by
token: each `{name}` occurrence is replaced by the value resolved with
precedence explicit kwargs over defaults, and a placeholder with no
resolved value is left as the literal `{name}` text. -/
theorem C4_process_renders (kwargs : List (Str × Option Str)) (D : Doc)
    (h : ∀ k ∈ kwargs.map Prod.fst, k ∈ variablesOf D.content) :
    process kwargs D = Except.ok (((tokenize (pipelineOf D.content)).map
      (renderTok (fun n => match alk kwargs n with
        | some o => o
        | none => alk D.defaults n))).flatten) := by
  have hfil : (kwargs.map Prod.fst).filter
      (fun q => ¬ q ∈ variablesOf D.content) = [] := by
    rw [List.filter_eq_nil_iff]
    intro a ha
    simpa using h a ha
  have hex : extraOf kwargs (variablesOf D.content) = [] := by
    unfold extraOf
    rw [hfil]
    rfl
  unfold process
  rw [if_neg (by simp [hex])]
  exact congrArg Except.ok (substFV_eq_render _ (pipelineOf D.content).length _ (le_refl _))

/-- Witness for `C4_process_renders` at the spec's worked example. -/
theorem C4_witness :
    process [(("var2").toList, some ['x'])]
      (Doc.mk [(("format_version").toList, ("1.0").toList)]
        [(("var1").toList, ("default1").toList)]
        (("Values: {var1}, {var2}.").toList)) =
      Except.ok (((tokenize (pipelineOf (("Values: {var1}, {var2}.").toList))).map
        (renderTok (fun n => match alk [(("var2").toList, some ['x'])] n with
          | some o => o
          | none => alk [(("var1").toList, ("default1").toList)] n))).flatten) :=
  C4_process_renders _ _ (by decide)

def eraseKey (k : Str) (m : List (Str × Str)) : List (Str × Str) :=
  m.filter (fun e => e.1 ≠ k)

theorem alk_eraseKey {v n : Str} (hne : n ≠ v) (m : List (Str × Str)) :
    alk (eraseKey v m) n = alk m n := by
  induction m with
  | nil => rfl
  | cons e t ih =>
    obtain ⟨k0, v0⟩ := e
    by_cases hk : k0 = v
    · subst hk
      have : eraseKey k0 ((k0, v0) :: t) = eraseKey k0 t := by
        simp [eraseKey, List.filter_cons]
      rw [this, ih, alk, if_neg (fun hq => hne hq.symm)]
    · have : eraseKey v ((k0, v0) :: t) = (k0, v0) :: eraseKey v t := by
        simp [eraseKey, List.filter_cons, hk]
      rw [this, alk, alk]
      split
      · rfl
      · exact ih

theorem substFV_congr (f g : Str → Option Str) (hfg : ∀ n, f n = g n) (s : Str) :
    substFV f s = substFV g s := by
  rw [substFV_eq_render f s.length s (le_refl _),
    substFV_eq_render g s.length s (le_refl _)]
  congr 1
  apply List.map_congr_left
  intro t _
  cases t with
  | lit c => rfl
  | var n => simp [renderTok, hfg n]

/-- Claim C10: an explicit `None` value supplied for `v` (modelled as
`some none` in the kwargs association) suppresses `v`'s default: the
resolved value is absent, the output is the same as if `v` had no
default at all, and the `{v}` token renders as the literal text. -/
theorem C10_explicit_none (kwargs : List (Str × Option Str)) (D : Doc)
    (v dv : Str) (hv : alk kwargs v = some none)
    (hd : alk D.defaults v = some dv) :
    resolveFn kwargs D.defaults v = none ∧
    renderTok (fun n => resolveFn kwargs D.defaults n) (Tok.var v) =
      '{' :: (v ++ ['}']) ∧
    process kwargs D = process kwargs ⟨D.metadata, eraseKey v D.defaults, D.content⟩ := by
  have hres : resolveFn kwargs D.defaults v = none := by
    unfold resolveFn
    rw [hv]
  refine ⟨hres, ?_, ?_⟩
  · simp [renderTok, hres]
  · have hpt : ∀ n, resolveFn kwargs D.defaults n =
        resolveFn kwargs (eraseKey v D.defaults) n := by
      intro n
      by_cases hn : n = v
      · subst hn
        unfold resolveFn
        rw [hv]
      · unfold resolveFn
        cases alk kwargs n with
        | some o => rfl
        | none => exact (alk_eraseKey hn D.defaults).symm
    unfold process
    by_cases hex : extraOf kwargs (variablesOf D.content) ≠ []
    · rw [if_pos hex, if_pos hex]
    · rw [if_neg hex, if_neg hex]
      exact congrArg Except.ok (substFV_congr _ _ hpt _)

/-- Witness for `C10_explicit_none` at a concrete input. -/
theorem C10_witness :
    resolveFn [(['v'], (none : Option Str))] [(['v'], ['d'])] ['v'] = none ∧
    renderTok (fun n => resolveFn [(['v'], (none : Option Str))] [(['v'], ['d'])] n)
      (Tok.var ['v']) = '{' :: (['v'] ++ ['}']) ∧
    process [(['v'], (none : Option Str))]
      (Doc.mk [(("format_version").toList, ['1'])] [(['v'], ['d'])]
        (("Hi {v}!").toList)) =
      process [(['v'], (none : Option Str))]
        (Doc.mk [(("format_version").toList, ['1'])]
          (eraseKey ['v'] [(['v'], ['d'])]) (("Hi {v}!").toList)) :=
  C10_explicit_none [(['v'], (none : Option Str))]
    (Doc.mk [(("format_version").toList, ['1'])] [(['v'], ['d'])]
      (("Hi {v}!").toList)) ['v'] ['d'] (by decide) (by decide)

/-! ## C3: the derived-variable computation -/

theorem takeWhile_words (p : Char → Bool) :
    ∀ (l : List Char) (x : Char) (xs : List Char),
    (∀ c ∈ l, p c = true) → p x = false →
    (l ++ x :: xs).takeWhile p = l ∧ (l ++ x :: xs).dropWhile p = x :: xs := by
  intro l
  induction l with
  | nil =>
    intro x xs _ hx
    simp [List.takeWhile_cons, List.dropWhile_cons, hx]
  | cons a l2 ih =>
    intro x xs hl hx
    have ha : p a = true := hl a (List.mem_cons_self a l2)
    have := ih x xs (fun c hc => hl c (List.mem_cons_of_mem a hc)) hx
    simp [List.takeWhile_cons, List.dropWhile_cons, ha, this.1, this.2]

theorem scanFV_cons_ne (c : Char) (t : Str) (hc : c ≠ '{') :
    scanFV (c :: t) = scanFV t := by
  rw [scanFV_cons, if_neg hc]

theorem run_decomp (γ : Str) : ∀ (w α2 r : Str),
    (∀ c ∈ w, wordChar c = true) →
    w ++ '}' :: r = α2 ++ '{' :: γ →
    ∃ α3, α2 = w ++ '}' :: α3 ∧ r = α3 ++ '{' :: γ := by
  intro w
  induction w with
  | nil =>
    intro α2 r _ heq
    cases α2 with
    | nil => simp at heq
    | cons b α3 =>
      simp only [List.nil_append, List.cons_append] at heq
      obtain ⟨hb, hrest⟩ := List.cons_eq_cons.mp heq
      exact ⟨α3, by simp [← hb], hrest⟩
  | cons d w2 ih =>
    intro α2 r hword heq
    cases α2 with
    | nil =>
      simp only [List.cons_append, List.nil_append] at heq
      obtain ⟨hb, _⟩ := List.cons_eq_cons.mp heq
      have hw := hword d (List.mem_cons_self d w2)
      rw [hb] at hw
      exact absurd hw (by decide)
    | cons b α3 =>
      simp only [List.cons_append] at heq
      obtain ⟨hb, hrest⟩ := List.cons_eq_cons.mp heq
      obtain ⟨α4, h1, h2⟩ :=
        ih α3 r (fun c hc2 => hword c (List.mem_cons_of_mem d hc2)) hrest
      exact ⟨α4, by simp [hb, h1], h2⟩

/-- The scan `re.findall(r'\{(\w+)\}', ·)` finds a name iff the string
contains a `{name}` occurrence with `name` a non-empty word run. -/
theorem scanFV_mem_iff : ∀ (N : Nat) (σ : Str), σ.length ≤ N → ∀ (n : Str),
    (n ∈ scanFV σ ↔ ∃ α β, σ = α ++ '{' :: (n ++ '}' :: β) ∧ n ≠ [] ∧
      ∀ c ∈ n, wordChar c = true) := by
  intro N
  induction N with
  | zero =>
    intro σ hσ n
    have : σ = [] := List.eq_nil_of_length_eq_zero (Nat.le_zero.mp hσ)
    subst this
    simp [scanFV_nil]
  | succ m ih =>
    intro σ hσ n
    cases σ with
    | nil => simp [scanFV_nil]
    | cons c t =>
      simp only [List.length_cons, Nat.add_le_add_iff_right] at hσ
      constructor
      · -- soundness
        intro hmem
        rw [scanFV_cons] at hmem
        by_cases hc : c = '{'
        · rw [if_pos hc] at hmem
          subst hc
          by_cases hg : (t.takeWhile wordChar) ≠ [] ∧
              (t.dropWhile wordChar).head? = some '}'
          · rw [if_pos hg] at hmem
            cases hd : t.dropWhile wordChar with
            | nil => rw [hd] at hg; simp at hg
            | cons e r =>
              have he : e = '}' := by
                rw [hd] at hg
                simpa using hg.2
              subst he
              rcases List.mem_cons.mp hmem with h1 | h2
              · subst h1
                refine ⟨[], r, ?_, hg.1, fun c hc2 => List.mem_takeWhile_imp hc2⟩
                have hta := List.takeWhile_append_dropWhile (p := wordChar) (l := t)
                rw [hd] at hta
                simp only [List.nil_append]
                rw [hta]
              · have hrt : r.length ≤ m := by
                  have h1 := dropWhile_len_le wordChar t
                  rw [hd] at h1
                  simp only [List.length_cons] at h1
                  omega
                have hr2 : (t.dropWhile wordChar).tail = r := by rw [hd]; rfl
                rw [hr2] at h2
                obtain ⟨α, β, hdec, hne, hwd⟩ := (ih r hrt n).mp h2
                refine ⟨'{' :: (t.takeWhile wordChar ++ '}' :: α), β, ?_, hne, hwd⟩
                have hta := List.takeWhile_append_dropWhile (p := wordChar) (l := t)
                rw [hd, hdec] at hta
                simp only [List.cons_append, List.append_assoc, List.nil_append]
                rw [hta]
          · rw [if_neg hg] at hmem
            obtain ⟨α, β, hdec, hne, hwd⟩ := (ih t hσ n).mp hmem
            exact ⟨'{' :: α, β, by rw [hdec]; simp, hne, hwd⟩
        · rw [if_neg hc] at hmem
          obtain ⟨α, β, hdec, hne, hwd⟩ := (ih t hσ n).mp hmem
          exact ⟨c :: α, β, by rw [hdec]; simp, hne, hwd⟩
      · -- completeness
        rintro ⟨α, β, hdec, hne, hwd⟩
        cases α with
        | nil =>
          simp only [List.nil_append] at hdec
          obtain ⟨hc, ht⟩ := List.cons_eq_cons.mp hdec
          subst hc
          rw [scanFV_cons, if_pos rfl]
          have hw : t.takeWhile wordChar = n ∧ t.dropWhile wordChar = '}' :: β := by
            rw [ht]
            exact takeWhile_words wordChar n '}' β hwd (by decide)
          rw [if_pos (by rw [hw.1, hw.2]; exact ⟨hne, rfl⟩)]
          rw [hw.1]
          exact List.mem_cons_self _ _
        | cons a α2 =>
          obtain ⟨hca, hta⟩ := List.cons_eq_cons.mp hdec
          simp only [List.append_eq] at hta
          subst hca
          rw [scanFV_cons]
          by_cases hc : c = '{'
          · rw [if_pos hc]
            by_cases hg : (t.takeWhile wordChar) ≠ [] ∧
                (t.dropWhile wordChar).head? = some '}'
            · rw [if_pos hg]
              cases hd : t.dropWhile wordChar with
              | nil => rw [hd] at hg; simp at hg
              | cons e r =>
                have he : e = '}' := by
                  rw [hd] at hg
                  simpa using hg.2
                subst he
                have hsplit : t = t.takeWhile wordChar ++ '}' :: r := by
                  have := List.takeWhile_append_dropWhile (p := wordChar) (l := t)
                  rw [hd] at this
                  exact this.symm
                have hword : ∀ c ∈ t.takeWhile wordChar, wordChar c = true :=
                  fun c hc2 => List.mem_takeWhile_imp hc2
                -- our occurrence must lie past the match just consumed
                have hpl : ∃ α3, α2 = t.takeWhile wordChar ++ '}' :: α3 ∧
                    r = α3 ++ '{' :: (n ++ '}' :: β) :=
                  run_decomp (n ++ '}' :: β) (t.takeWhile wordChar) α2 r hword
                    (hsplit.symm.trans hta)
                obtain ⟨α3, _, hr⟩ := hpl
                have hrt : r.length ≤ m := by
                  have h1 := dropWhile_len_le wordChar t
                  rw [hd] at h1
                  simp only [List.length_cons] at h1
                  omega
                have : n ∈ scanFV r := (ih r hrt n).mpr ⟨α3, β, hr, hne, hwd⟩
                exact List.mem_cons_of_mem _ this
            · rw [if_neg hg]
              exact (ih t hσ n).mpr ⟨α2, β, hta, hne, hwd⟩
          · rw [if_neg hc]
            exact (ih t hσ n).mpr ⟨α2, β, hta, hne, hwd⟩

theorem collapse_head (s : Str) : (collapse s).head? = s.head? := by
  cases s with
  | nil => rfl
  | cons c t =>
    rw [collapse_cons]
    split <;> rfl

theorem collapse_dropWhile_eq (c : Char) (hc : c = '{' ∨ c = '}') (x : Str) :
    collapse (x.dropWhile (· = c)) =
      if (collapse x).head? = some c then (collapse x).tail else collapse x := by
  cases x with
  | nil => simp [collapse_nil]
  | cons d t =>
    by_cases hd : d = c
    · subst hd
      rw [List.dropWhile_cons_of_pos (by simp), collapse_cons, if_pos hc]
      simp
    · rw [List.dropWhile_cons_of_neg (by simp [hd])]
      have hh : (collapse (d :: t)).head? = some d := by
        rw [collapse_cons]
        split <;> rfl
      rw [if_neg (by rw [hh]; simp [hd])]

theorem collapse_congr_cons (c : Char) {a b : Str} (h : collapse a = collapse b) :
    collapse (c :: a) = collapse (c :: b) := by
  by_cases hc : c = '{' ∨ c = '}'
  · rw [collapse_cons, collapse_cons, if_pos hc, if_pos hc,
      collapse_dropWhile_eq c hc a, collapse_dropWhile_eq c hc b, h]
  · rw [collapse_cons, collapse_cons, if_neg hc, if_neg hc, h]

theorem collapse_congr_append (u : Str) {a b : Str} (h : collapse a = collapse b) :
    collapse (u ++ a) = collapse (u ++ b) := by
  induction u with
  | nil => exact h
  | cons c u2 ih => exact collapse_congr_cons c ih

theorem collapse_dup (c : Char) (hc : c = '{' ∨ c = '}') (u v : Str) :
    collapse (u ++ c :: c :: v) = collapse (u ++ c :: v) := by
  apply collapse_congr_append u
  rw [collapse_cons, collapse_cons, if_pos hc, if_pos hc,
    List.dropWhile_cons_of_pos (by simp)]

theorem bbSplit_eq_append {s : Str} {a b : Str} (h : bbSplit s = some (a, b)) :
    s = a ++ '}' :: '}' :: b := by
  induction s generalizing a b with
  | nil => simp [bbSplit] at h
  | cons c t ih =>
    rw [bbSplit] at h
    split at h
    · next hc =>
      simp at h
      obtain ⟨h1, h2⟩ := h
      subst h1; subst h2
      cases t with
      | nil => simp at hc
      | cons d u =>
        simp only [List.head?_cons, Option.some.injEq] at hc
        simp [hc.1, hc.2]
    · split at h
      · simp at h
      · cases hm : bbSplit t with
        | none => rw [hm] at h; simp at h
        | some p =>
          rw [hm] at h
          simp at h
          obtain ⟨h1, h2⟩ := h
          subst h1; subst h2
          simp [ih (a := p.1) (b := p.2) (by rw [hm])]

/-- Normalizing `{{...}}` groups does not change the brace-run collapse:
the pass only deletes one `{` out of a `{{` pair and one `}` out of a
`}}` pair. -/
theorem collapse_normB : ∀ (N : Nat) (s : Str), s.length ≤ N →
    collapse (normB s) = collapse s := by
  intro N
  induction N with
  | zero =>
    intro s hs
    have : s = [] := List.eq_nil_of_length_eq_zero (Nat.le_zero.mp hs)
    subst this
    rfl
  | succ m ih =>
    intro s hs
    cases s with
    | nil => rfl
    | cons c t =>
      simp only [List.length_cons, Nat.add_le_add_iff_right] at hs
      rw [normB_cons]
      by_cases hcc : c = '{' ∧ t.head? = some '{'
      · rw [if_pos hcc]
        cases hm : bbSplit t.tail with
        | none => exact collapse_congr_cons c (ih t hs)
        | some p =>
          obtain ⟨g, r⟩ := p
          have hr : r.length ≤ m := by
            have h1 := bbSplit_length hm
            have h2 := tail_len_le t
            omega
          obtain ⟨hc1, t2, ht2⟩ : c = '{' ∧ ∃ t2, t = '{' :: t2 := by
            refine ⟨hcc.1, ?_⟩
            cases t with
            | nil => simp at hcc
            | cons d u =>
              have : d = '{' := by simpa using hcc.2
              exact ⟨u, by rw [this]⟩
          subst hc1
          subst ht2
          have htt : t2 = g ++ '}' :: '}' :: r := bbSplit_eq_append hm
          subst htt
          -- left side: '{' :: (g ++ '}' :: normB r)
          have hleft : collapse ('{' :: (g ++ '}' :: normB r)) =
              collapse ('{' :: (g ++ '}' :: r)) := by
            have : ∀ w : Str, '{' :: (g ++ '}' :: w) = ('{' :: g ++ ['}']) ++ w := by
              intro w
              simp
            rw [this (normB r), this r]
            exact collapse_congr_append _ (ih r hr)
          rw [hleft]
          -- right side: '{' :: '{' :: (g ++ '}' :: '}' :: r)
          have hright : collapse ('{' :: '{' :: (g ++ '}' :: '}' :: r)) =
              collapse ('{' :: (g ++ '}' :: r)) := by
            have e1 : ('{' : Char) :: '{' :: (g ++ '}' :: '}' :: r) =
                [] ++ '{' :: '{' :: (g ++ '}' :: '}' :: r) := by simp
            rw [e1, collapse_dup '{' (Or.inl rfl) [] (g ++ '}' :: '}' :: r)]
            have e2 : ([] : Str) ++ '{' :: (g ++ '}' :: '}' :: r) =
                ('{' :: g) ++ '}' :: '}' :: r := by simp
            rw [e2, collapse_dup '}' (Or.inr rfl) ('{' :: g) r]
            simp
          rw [← hright]
      · rw [if_neg hcc]
        exact collapse_congr_cons c (ih t hs)

theorem word_not_brace {c : Char} (h : wordChar c = true) : ¬(c = '{' ∨ c = '}') := by
  rintro (rfl | rfl) <;> simp [wordChar] at h

theorem scan_drop_rbrace : ∀ (x : Str), scanFV (x.dropWhile (· = '}')) = scanFV x := by
  intro x
  induction x with
  | nil => rfl
  | cons d t ih =>
    by_cases hd : d = '}'
    · subst hd
      rw [List.dropWhile_cons_of_pos (by simp), ih, scanFV_cons_ne _ _ (by decide)]
    · rw [List.dropWhile_cons_of_neg (by simp [hd])]

theorem collapse_words : ∀ (W R : Str), (∀ c ∈ W, wordChar c = true) →
    collapse (W ++ R) = W ++ collapse R := by
  intro W
  induction W with
  | nil => intro R _; rfl
  | cons w W2 ih =>
    intro R hW
    have hw := hW w (List.mem_cons_self w W2)
    rw [List.cons_append, collapse_cons, if_neg (word_not_brace hw),
      ih R (fun c hc => hW c (List.mem_cons_of_mem w hc))]
    rfl

theorem tw_append (p : Char → Bool) : ∀ (W X : Str), (∀ c ∈ W, p c = true) →
    (W ++ X).takeWhile p = W ++ X.takeWhile p ∧
    (W ++ X).dropWhile p = X.dropWhile p := by
  intro W
  induction W with
  | nil => intro X _; exact ⟨rfl, rfl⟩
  | cons w W2 ih =>
    intro X hW
    have hw := hW w (List.mem_cons_self w W2)
    have := ih X (fun c hc => hW c (List.mem_cons_of_mem w hc))
    simp [List.takeWhile_cons, List.dropWhile_cons, hw, this.1, this.2]

theorem dropWhile_head_false (p : Char → Bool) : ∀ (t : List Char) {a : Char},
    (t.dropWhile p).head? = some a → p a = false := by
  intro t
  induction t with
  | nil => intro a h; simp at h
  | cons d u ih =>
    intro a h
    by_cases hd : p d
    · rw [List.dropWhile_cons_of_pos hd] at h
      exact ih h
    · rw [List.dropWhile_cons_of_neg hd] at h
      simp only [List.head?_cons, Option.some.injEq] at h
      subst h
      exact Bool.eq_false_iff.mpr hd

theorem dropWhile_of_head_false (p : Char → Bool) (x : List Char)
    (h : ∀ a, x.head? = some a → p a = false) :
    x.takeWhile p = [] ∧ x.dropWhile p = x := by
  cases x with
  | nil => exact ⟨rfl, rfl⟩
  | cons d u =>
    have := h d rfl
    simp [List.takeWhile_cons, List.dropWhile_cons, this]

/-- Collapsing brace runs does not change the set of `{name}` matches
found by the scan. -/
theorem scanFV_collapse : ∀ (N : Nat) (σ : Str), σ.length ≤ N → ∀ (n : Str),
    (n ∈ scanFV (collapse σ) ↔ n ∈ scanFV σ) := by
  intro N
  induction N with
  | zero =>
    intro σ hσ n
    have : σ = [] := List.eq_nil_of_length_eq_zero (Nat.le_zero.mp hσ)
    subst this
    simp [collapse_nil]
  | succ m ih =>
    intro σ hσ n
    cases σ with
    | nil => simp [collapse_nil]
    | cons c t =>
      simp only [List.length_cons, Nat.add_le_add_iff_right] at hσ
      by_cases hc2 : c = '}'
      · subst hc2
        rw [collapse_cons, if_pos (Or.inr rfl), scanFV_cons_ne _ _ (by decide),
          scanFV_cons_ne _ _ (by decide)]
        have hlen : (t.dropWhile (· = '}')).length ≤ m :=
          le_trans (dropWhile_len_le _ _) hσ
        rw [← scan_drop_rbrace t]
        exact ih _ hlen n
      · by_cases hc1 : c = '{'
        · subst hc1
          by_cases hth : t.head? = some '{'
          · obtain ⟨t2, rfl⟩ : ∃ t2, t = '{' :: t2 := by
              cases t with
              | nil => simp at hth
              | cons d u =>
                have : d = '{' := by simpa using hth
                exact ⟨u, by rw [this]⟩
            have hcoll : collapse ('{' :: '{' :: t2) = collapse ('{' :: t2) := by
              rw [collapse_cons, if_pos (Or.inl rfl),
                List.dropWhile_cons_of_pos (by simp),
                collapse_cons, if_pos (Or.inl rfl)]
            have hscan : scanFV ('{' :: '{' :: t2) = scanFV ('{' :: t2) := by
              rw [scanFV_cons, if_pos rfl]
              have : ('{' :: t2).takeWhile wordChar = [] := by
                simp [List.takeWhile_cons, wordChar]
              rw [this]
              simp
            rw [hcoll, hscan]
            exact ih ('{' :: t2) (by simpa using hσ) n
          · have hdt : t.dropWhile (· = '{') = t := by
              have hhd : ∀ a, t.head? = some a → decide (a = '{') = false := by
                intro a ha
                cases t with
                | nil => simp at ha
                | cons d u =>
                  simp only [List.head?_cons, Option.some.injEq] at ha
                  subst ha
                  simp only [List.head?_cons] at hth
                  exact decide_eq_false (fun he => hth (by rw [he]))
              exact (dropWhile_of_head_false (fun a => decide (a = '{')) t hhd).2
            rw [collapse_cons, if_pos (Or.inl rfl), hdt]
            -- collapse t decomposes along the leading word run of t
            have hW : ∀ c ∈ t.takeWhile wordChar, wordChar c = true :=
              fun c hc => List.mem_takeWhile_imp hc
            have hsplitT : t = t.takeWhile wordChar ++ t.dropWhile wordChar :=
              (List.takeWhile_append_dropWhile (p := wordChar) (l := t)).symm
            have hcollT : collapse t =
                t.takeWhile wordChar ++ collapse (t.dropWhile wordChar) := by
              conv_lhs => rw [hsplitT]
              exact collapse_words _ _ hW
            have hwR : ∀ a, (t.dropWhile wordChar).head? = some a →
                wordChar a = false := fun a ha => dropWhile_head_false _ t ha
            have hwCR : ∀ a, (collapse (t.dropWhile wordChar)).head? = some a →
                wordChar a = false := by
              intro a ha
              rw [collapse_head] at ha
              exact hwR a ha
            have htw : (collapse t).takeWhile wordChar = t.takeWhile wordChar := by
              rw [hcollT, (tw_append wordChar _ _ hW).1,
                (dropWhile_of_head_false wordChar _ hwCR).1]
              simp
            have hdw : (collapse t).dropWhile wordChar =
                collapse (t.dropWhile wordChar) := by
              rw [hcollT, (tw_append wordChar _ _ hW).2,
                (dropWhile_of_head_false wordChar _ hwCR).2]
            rw [scanFV_cons, if_pos rfl, scanFV_cons, if_pos rfl, htw, hdw]
            by_cases hg : t.takeWhile wordChar ≠ [] ∧
                (t.dropWhile wordChar).head? = some '}'
            · have hg2 : t.takeWhile wordChar ≠ [] ∧
                  (collapse (t.dropWhile wordChar)).head? = some '}' := by
                rw [collapse_head]
                exact hg
              rw [if_pos hg, if_pos hg2]
              obtain ⟨R2, hR⟩ : ∃ R2, t.dropWhile wordChar = '}' :: R2 := by
                cases hdrop : t.dropWhile wordChar with
                | nil => rw [hdrop] at hg; simp at hg
                | cons e u =>
                  rw [hdrop] at hg
                  have : e = '}' := by simpa using hg.2
                  exact ⟨u, by rw [this]⟩
              rw [hR, collapse_cons, if_pos (Or.inr rfl)]
              simp only [List.tail_cons, List.mem_cons]
              have hlen2 : (R2.dropWhile (· = '}')).length ≤ m := by
                have h1 := dropWhile_len_le (· = '}') R2
                have h2 := dropWhile_len_le wordChar t
                rw [hR] at h2
                simp only [List.length_cons] at h2
                omega
              have := ih (R2.dropWhile (· = '}')) hlen2 n
              rw [scan_drop_rbrace R2] at this
              rw [this]
            · have hg2 : ¬(t.takeWhile wordChar ≠ [] ∧
                  (collapse (t.dropWhile wordChar)).head? = some '}') := by
                rw [collapse_head]
                exact hg
              rw [if_neg hg, if_neg hg2]
              exact ih t hσ n
        · have hnb : ¬(c = '{' ∨ c = '}') := by
            rintro (h | h) <;> [exact hc1 h; exact hc2 h]
          rw [collapse_cons, if_neg hnb, scanFV_cons_ne _ _ hc1,
            scanFV_cons_ne _ _ hc1]
          exact ih t hσ n

theorem pctSplit_append_no : ∀ (a b : Str), ¬ '%' ∈ a →
    pctSplit (a ++ b) = (pctSplit b).map (fun p => (a ++ p.1, p.2)) := by
  intro a
  induction a with
  | nil =>
    intro b _
    simp only [List.nil_append]
    cases hb : pctSplit b <;> rfl
  | cons c a2 ih =>
    intro b hna
    have hc : c ≠ '%' := fun he => hna (he ▸ List.mem_cons_self c a2)
    rw [List.cons_append, pctSplit, if_neg hc,
      ih b (fun hm => hna (List.mem_cons_of_mem c hm))]
    cases hb : pctSplit b with
    | none => rfl
    | some p => rfl

theorem pctSplit_append_yes : ∀ (a b a1 a2 : Str), pctSplit a = some (a1, a2) →
    pctSplit (a ++ b) = some (a1, a2 ++ b) := by
  intro a
  induction a with
  | nil => intro b a1 a2 h; simp [pctSplit] at h
  | cons c t ih =>
    intro b a1 a2 h
    rw [pctSplit] at h
    split at h
    · next hc =>
      simp at h
      obtain ⟨h1, h2⟩ := h
      subst h1; subst h2
      rw [List.cons_append, pctSplit, if_pos hc]
    · next hc =>
      cases hm : pctSplit t with
      | none => rw [hm] at h; simp at h
      | some p =>
        rw [hm] at h
        simp at h
        obtain ⟨h1, h2⟩ := h
        subst h1; subst h2
        rw [List.cons_append, pctSplit, if_neg hc, ih b p.1 p.2 (by rw [hm])]
        rfl

theorem pctSplit_mem : ∀ (l : Str), '%' ∈ l → ∃ a b, pctSplit l = some (a, b) := by
  intro l
  induction l with
  | nil => intro h; simp at h
  | cons c t ih =>
    intro h
    by_cases hc : c = '%'
    · exact ⟨[], t, by rw [pctSplit, if_pos hc]⟩
    · have : '%' ∈ t := by
        rcases List.mem_cons.mp h with h1 | h2
        · exact absurd h1.symm hc
        · exact h2
      obtain ⟨a, b, hab⟩ := ih this
      exact ⟨c :: a, b, by rw [pctSplit, if_neg hc, hab]; rfl⟩

theorem strip_append_clean : ∀ (B v : Str), (∀ c ∈ B, c ≠ '(') →
    stripComments (B ++ v) = B ++ stripComments v := by
  intro B
  induction B with
  | nil => intro v _; rfl
  | cons c B2 ih =>
    intro v hB
    have hc : c ≠ '(' := hB c (List.mem_cons_self c B2)
    rw [List.cons_append,
      stripComments_cons_noopen c _ (fun hpair => hc hpair.1),
      ih v (fun d hd => hB d (List.mem_cons_of_mem c hd))]
    rfl

theorem head_append_ne {B1 B2 : Str} (v : Str) (hh : B1.head? = B2.head?)
    (hne1 : B1 ≠ []) : ∀ (u2 : Str),
    ((u2 ++ B1) ++ v).head? = ((u2 ++ B2) ++ v).head? := by
  intro u2
  cases u2 with
  | cons d u3 => rfl
  | nil =>
    cases B1 with
    | nil => exact absurd rfl hne1
    | cons b1 t1 =>
      cases B2 with
      | nil => simp at hh
      | cons b2 t2 =>
        simp only [List.head?_cons, Option.some.injEq] at hh
        simp [hh]

/-- The comment-stripping pass treats the two placeholder blocks
identically: their collapses after stripping agree in any context, as
long as the blocks contain no comment-delimiter characters. -/
theorem stripTrans (B1 B2 : Str)
    (hne1 : B1 ≠ []) (hh : B1.head? = B2.head?)
    (hcl : ∀ c, (c ∈ B1 ∨ c ∈ B2) → (c ≠ '(' ∧ c ≠ '%' ∧ c ≠ ')'))
    (hBB : ∀ w, collapse (B1 ++ w) = collapse (B2 ++ w)) :
    ∀ (N : Nat) (u v : Str), u.length ≤ N →
    collapse (stripComments ((u ++ B1) ++ v)) =
      collapse (stripComments ((u ++ B2) ++ v)) := by
  have hB1h : ∀ d, B1.head? = some d → d ≠ '%' ∧ d ≠ ')' := by
    intro d hd
    have : d ∈ B1 := by
      cases B1 with
      | nil => simp at hd
      | cons x t =>
        simp only [List.head?_cons, Option.some.injEq] at hd
        subst hd
        exact List.mem_cons_self _ _
    exact ⟨(hcl d (Or.inl this)).2.1, (hcl d (Or.inl this)).2.2⟩
  have hB2ne : B2 ≠ [] := by
    intro he
    rw [he] at hh
    cases B1 with
    | nil => exact hne1 rfl
    | cons b t => simp at hh
  intro N
  induction N with
  | zero =>
    intro u v hu
    have : u = [] := List.eq_nil_of_length_eq_zero (Nat.le_zero.mp hu)
    subst this
    simp only [List.nil_append]
    rw [strip_append_clean B1 v (fun c hc => (hcl c (Or.inl hc)).1),
      strip_append_clean B2 v (fun c hc => (hcl c (Or.inr hc)).1)]
    exact hBB (stripComments v)
  | succ m ih =>
    intro u v hu
    cases u with
    | nil => exact ih [] v (by simp)
    | cons c u2 =>
      simp only [List.length_cons, Nat.add_le_add_iff_right] at hu
      have hassoc : ∀ (B : Str), ((c :: u2 ++ B) ++ v) = c :: ((u2 ++ B) ++ v) := by
        intro B
        simp
      rw [hassoc B1, hassoc B2]
      by_cases hop : c = '(' ∧ ((u2 ++ B1) ++ v).head? = some '%'
      · obtain ⟨hc, hhd⟩ := hop
        subst hc
        obtain ⟨u3, rfl⟩ : ∃ u3, u2 = '%' :: u3 := by
          cases u2 with
          | cons d u3 =>
            simp only [List.cons_append, List.head?_cons, Option.some.injEq] at hhd
            exact ⟨u3, by rw [hhd]⟩
          | nil =>
            exfalso
            simp only [List.nil_append] at hhd
            cases B1 with
            | nil => exact hne1 rfl
            | cons b1 t1 =>
              simp only [List.cons_append, List.head?_cons, Option.some.injEq] at hhd
              exact (hB1h b1 rfl).1 hhd
        simp only [List.length_cons, Nat.add_le_add_iff_right] at hu
        have hXassoc : ∀ (B : Str), (('%' :: u3 ++ B) ++ v) = '%' :: ((u3 ++ B) ++ v) := by
          intro B
          simp
        rw [hXassoc B1, hXassoc B2]
        -- shared shortcut: when neither side has a span, both sides emit
        -- the two scanned characters and recurse after them
        have hdouble : ∀ (B : Str),
            (∀ a r, pctSplit ((u3 ++ B) ++ v) ≠ some (a, ')' :: r)) →
            stripComments ('(' :: '%' :: ((u3 ++ B) ++ v)) =
              '(' :: '%' :: stripComments ((u3 ++ B) ++ v) := by
          intro B hn
          rw [stripComments_cons_nospan ('%' :: ((u3 ++ B) ++ v)) rfl hn,
            stripComments_cons_noopen '%' _ (by simp)]
        by_cases hmem : '%' ∈ u3
        · obtain ⟨a1, a2, hps⟩ := pctSplit_mem u3 hmem
          have hps1 : ∀ (B : Str),
              pctSplit ((u3 ++ B) ++ v) = some (a1, (a2 ++ B) ++ v) := by
            intro B
            have hx := pctSplit_append_yes u3 (B ++ v) a1 a2 hps
            rw [List.append_assoc, List.append_assoc]
            exact hx
          have ha2len := pctSplit_length hps
          cases a2 with
          | nil =>
            have hnospan : ∀ (B : Str), B.head? = B1.head? →
                ∀ a r, pctSplit ((u3 ++ B) ++ v) ≠ some (a, ')' :: r) := by
              intro B hB a r hcontra
              rw [hps1 B] at hcontra
              simp only [Option.some.injEq, Prod.mk.injEq] at hcontra
              have hhead : (B ++ v).head? = some ')' := by
                have := hcontra.2
                simp only [List.nil_append] at this
                rw [this]
                rfl
              cases B with
              | nil =>
                cases B1 with
                | nil => exact hne1 rfl
                | cons x t => simp at hB
              | cons b t =>
                simp only [List.cons_append, List.head?_cons, Option.some.injEq] at hhead
                have hb : B1.head? = some b := by rw [← hB]; rfl
                exact (hB1h b hb).2 hhead
            rw [hdouble B1 (hnospan B1 rfl), hdouble B2 (hnospan B2 hh.symm)]
            exact collapse_congr_cons _ (collapse_congr_cons _ (ih u3 v (by omega)))
          | cons d a3 =>
            by_cases hd : d = ')'
            · subst hd
              have hspan : ∀ (B : Str),
                  stripComments ('(' :: '%' :: ((u3 ++ B) ++ v)) =
                    stripComments ((a3 ++ B) ++ v) := by
                intro B
                refine stripComments_cons_span ('%' :: ((u3 ++ B) ++ v)) a1
                  ((a3 ++ B) ++ v) rfl ?_
                simp only [List.tail_cons]
                rw [hps1 B]
                simp
              rw [hspan B1, hspan B2]
              have ha3 : a3.length ≤ m := by
                simp only [List.length_cons] at ha2len
                omega
              exact ih a3 v ha3
            · have hnospan : ∀ (B : Str),
                  ∀ a r, pctSplit ((u3 ++ B) ++ v) ≠ some (a, ')' :: r) := by
                intro B a r hcontra
                rw [hps1 B] at hcontra
                simp only [Option.some.injEq, Prod.mk.injEq] at hcontra
                have := hcontra.2
                simp only [List.cons_append] at this
                exact hd (List.cons_eq_cons.mp this).1
              rw [hdouble B1 (hnospan B1), hdouble B2 (hnospan B2)]
              exact collapse_congr_cons _ (collapse_congr_cons _ (ih u3 v (by omega)))
        · have hnoB : ∀ (B : Str), (∀ x ∈ B, x ≠ '%') → ¬ '%' ∈ (u3 ++ B) := by
            intro B hB hcontra
            rcases List.mem_append.mp hcontra with h1 | h2
            · exact hmem h1
            · exact hB '%' h2 rfl
          have hpsv : ∀ (B : Str), (∀ x ∈ B, x ≠ '%') →
              pctSplit ((u3 ++ B) ++ v) =
                (pctSplit v).map (fun p => ((u3 ++ B) ++ p.1, p.2)) := by
            intro B hB
            exact pctSplit_append_no (u3 ++ B) v (hnoB B hB)
          have hB1pct : ∀ x ∈ B1, x ≠ '%' := fun x hx => (hcl x (Or.inl hx)).2.1
          have hB2pct : ∀ x ∈ B2, x ≠ '%' := fun x hx => (hcl x (Or.inr hx)).2.1
          cases hpv : pctSplit v with
          | none =>
            have hnospan : ∀ (B : Str), (∀ x ∈ B, x ≠ '%') →
                ∀ a r, pctSplit ((u3 ++ B) ++ v) ≠ some (a, ')' :: r) := by
              intro B hB a r hcontra
              rw [hpsv B hB, hpv] at hcontra
              simp at hcontra
            rw [hdouble B1 (hnospan B1 hB1pct), hdouble B2 (hnospan B2 hB2pct)]
            exact collapse_congr_cons _ (collapse_congr_cons _ (ih u3 v (by omega)))
          | some p =>
            obtain ⟨b1, b2⟩ := p
            cases b2 with
            | nil =>
              have hnospan : ∀ (B : Str), (∀ x ∈ B, x ≠ '%') →
                  ∀ a r, pctSplit ((u3 ++ B) ++ v) ≠ some (a, ')' :: r) := by
                intro B hB a r hcontra
                rw [hpsv B hB, hpv] at hcontra
                simp at hcontra
              rw [hdouble B1 (hnospan B1 hB1pct), hdouble B2 (hnospan B2 hB2pct)]
              exact collapse_congr_cons _ (collapse_congr_cons _ (ih u3 v (by omega)))
            | cons d b3 =>
              by_cases hd : d = ')'
              · subst hd
                have hspan : ∀ (B : Str), (∀ x ∈ B, x ≠ '%') →
                    stripComments ('(' :: '%' :: ((u3 ++ B) ++ v)) =
                      stripComments b3 := by
                  intro B hB
                  refine stripComments_cons_span ('%' :: ((u3 ++ B) ++ v))
                    ((u3 ++ B) ++ b1) b3 rfl ?_
                  simp only [List.tail_cons]
                  rw [hpsv B hB, hpv]
                  rfl
                rw [hspan B1 hB1pct, hspan B2 hB2pct]
              · have hnospan : ∀ (B : Str), (∀ x ∈ B, x ≠ '%') →
                    ∀ a r, pctSplit ((u3 ++ B) ++ v) ≠ some (a, ')' :: r) := by
                  intro B hB a r hcontra
                  rw [hpsv B hB, hpv] at hcontra
                  have h2 : d :: b3 = ')' :: r :=
                    congrArg Prod.snd (Option.some.inj hcontra)
                  exact hd (List.cons_eq_cons.mp h2).1
                rw [hdouble B1 (hnospan B1 hB1pct), hdouble B2 (hnospan B2 hB2pct)]
                exact collapse_congr_cons _ (collapse_congr_cons _ (ih u3 v (by omega)))
      · have hop2 : ¬(c = '(' ∧ ((u2 ++ B2) ++ v).head? = some '%') := by
          rw [← head_append_ne v hh hne1 u2]
          exact hop
        rw [stripComments_cons_noopen c _ hop, stripComments_cons_noopen c _ hop2]
        exact collapse_congr_cons c (ih u2 v hu)

theorem word_not_special {c : Char} (h : wordChar c = true) :
    c ≠ '(' ∧ c ≠ '%' ∧ c ≠ ')' := by
  refine ⟨?_, ?_, ?_⟩ <;> rintro rfl <;> simp [wordChar] at h

theorem varSet_collapse_strip (s n : Str) :
    (n ∈ variablesOf s ↔ n ∈ scanFV (collapse (stripComments s))) := by
  unfold variablesOf pipelineOf
  rw [List.mem_dedup]
  rw [← scanFV_collapse (normB (stripComments s)).length _ (le_refl _) n]
  rw [collapse_normB (stripComments s).length _ (le_refl _)]

/-- Splits a string at its first `%)` pair: models the lookahead of the
spec's reference pattern `\(%(.*?)%\)` with DOTALL, whose span may
contain any characters. -/
def ppSplit : Str → Option (Str × Str)
  | [] => none
  | c :: t =>
    if c = '%' ∧ t.head? = some ')' then some ([], t.tail)
    else (ppSplit t).map (fun p => (c :: p.1, p.2))

/-- Modelled from the spec: the reference comment-stripping of the
derived-variable definition, `re.sub(r'\(%.*?%\)', '', s, re.DOTALL)` —
non-greedy spans with arbitrary content, ending at the first `%)`. -/
def specStripGo : Nat → Str → Str
  | 0, _ => []
  | _ + 1, [] => []
  | f + 1, c :: t =>
    if c = '(' ∧ t.head? = some '%' then
      match ppSplit t.tail with
      | some (_, r) => specStripGo f r
      | none => c :: specStripGo f t
    else c :: specStripGo f t

def specStripAny (s : Str) : Str := specStripGo s.length s

/-- Modelled from the spec: the reference derived-variable definition of
claim C3 (strip any-content spans, normalize `{{}}`, collect `\{(\w+)\}`). -/
def specVariablesRef (content : Str) : List Str :=
  (scanFV (normB (specStripAny content))).dedup

/-- Claim C3 (counterexample): for the content `(%{a}%{b}%)` the code
derives the variable set `{a, b}` (its span pattern `[^%]*?` cannot
cross the inner `%`), while the spec's reference definition, which
strips spans regardless of the characters inside, derives the empty
set. -/
theorem C3_counterexample :
    (['a'] ∈ variablesOf (("(%{a}%{b}%)").toList)) ∧
    ¬ (['a'] ∈ specVariablesRef (("(%{a}%{b}%)").toList)) := by
  decide

/-- Claim C3 (amended): the derived variable set contains exactly the
non-empty `\w+` names `n` such that `{n}` occurs in the comment-stripped
(spans may not contain `%`), `{{}}`-normalized content; and replacing a
`{{x}}` occurrence by `{x}` anywhere leaves the derived variable set
unchanged. -/
theorem C3_brace_invariance :
    (∀ (s n : Str), (n ∈ variablesOf s ↔
      ∃ α β, pipelineOf s = α ++ '{' :: (n ++ '}' :: β) ∧ n ≠ [] ∧
        ∀ c ∈ n, wordChar c = true)) ∧
    (∀ (u v x : Str), x ≠ [] → (∀ c ∈ x, wordChar c = true) →
      ∀ n, (n ∈ variablesOf (u ++ '{' :: '{' :: (x ++ '}' :: '}' :: v)) ↔
        n ∈ variablesOf (u ++ '{' :: (x ++ '}' :: v)))) := by
  constructor
  · intro s n
    unfold variablesOf
    rw [List.mem_dedup]
    exact scanFV_mem_iff (pipelineOf s).length _ (le_refl _) n
  · intro u v x hxne hxw n
    have hxB1 : ∀ c ∈ ('{' :: '{' :: (x ++ ['}', '}']) : Str),
        c = '{' ∨ c = '}' ∨ c ∈ x := by
      intro c hc
      simp only [List.mem_cons, List.mem_append] at hc
      rcases hc with rfl | rfl | hx | hx
      · exact Or.inl rfl
      · exact Or.inl rfl
      · exact Or.inr (Or.inr hx)
      · rcases hx with rfl | hx
        · exact Or.inr (Or.inl rfl)
        · rcases hx with rfl | hx
          · exact Or.inr (Or.inl rfl)
          · simp at hx
    have hxB2 : ∀ c ∈ ('{' :: (x ++ ['}']) : Str), c = '{' ∨ c = '}' ∨ c ∈ x := by
      intro c hc
      simp only [List.mem_cons, List.mem_append] at hc
      rcases hc with rfl | hx | hx
      · exact Or.inl rfl
      · exact Or.inr (Or.inr hx)
      · rcases hx with rfl | hx
        · exact Or.inr (Or.inl rfl)
        · simp at hx
    have hcl : ∀ c, (c ∈ ('{' :: '{' :: (x ++ ['}', '}']) : Str) ∨
        c ∈ ('{' :: (x ++ ['}']) : Str)) → (c ≠ '(' ∧ c ≠ '%' ∧ c ≠ ')') := by
      intro c hc
      have : c = '{' ∨ c = '}' ∨ c ∈ x := by
        rcases hc with h | h
        · exact hxB1 c h
        · exact hxB2 c h
      rcases this with rfl | rfl | hx
      · exact ⟨by decide, by decide, by decide⟩
      · exact ⟨by decide, by decide, by decide⟩
      · exact word_not_special (hxw c hx)
    have hBB : ∀ w, collapse (('{' :: '{' :: (x ++ ['}', '}']) : Str) ++ w) =
        collapse (('{' :: (x ++ ['}']) : Str) ++ w) := by
      intro w
      have e1 : ('{' :: '{' :: (x ++ ['}', '}']) : Str) ++ w =
          [] ++ '{' :: '{' :: (x ++ '}' :: '}' :: w) := by simp
      have e2 : ([] : Str) ++ '{' :: (x ++ '}' :: '}' :: w) =
          ('{' :: x) ++ '}' :: '}' :: w := by simp
      have e3 : ('{' :: x) ++ '}' :: w = ('{' :: (x ++ ['}']) : Str) ++ w := by simp
      rw [e1, collapse_dup '{' (Or.inl rfl) [] (x ++ '}' :: '}' :: w), e2,
        collapse_dup '}' (Or.inr rfl) ('{' :: x) w, e3]
    have hS := stripTrans ('{' :: '{' :: (x ++ ['}', '}']))
      ('{' :: (x ++ ['}'])) (by simp) rfl hcl hBB u.length u v (le_refl _)
    have e1 : (u ++ ('{' :: '{' :: (x ++ ['}', '}']))) ++ v =
        u ++ '{' :: '{' :: (x ++ '}' :: '}' :: v) := by simp
    have e2 : (u ++ ('{' :: (x ++ ['}']))) ++ v =
        u ++ '{' :: (x ++ '}' :: v) := by simp
    rw [e1, e2] at hS
    rw [varSet_collapse_strip (u ++ '{' :: '{' :: (x ++ '}' :: '}' :: v)) n,
      varSet_collapse_strip (u ++ '{' :: (x ++ '}' :: v)) n, hS]

/-- Witness for `C3_brace_invariance` at a concrete input. -/
theorem C3_witness :
    (['x'] ≠ ([] : Str)) ∧
    ((['x'] : Str) ∈ variablesOf ([] ++ '{' :: '{' :: (['x'] ++ '}' :: '}' :: [])) ↔
      ['x'] ∈ variablesOf ([] ++ '{' :: (['x'] ++ '}' :: []))) :=
  ⟨by decide, C3_brace_invariance.2 [] [] ['x'] (by decide) (by decide) ['x']⟩

/-! ## C1: round-trip infrastructure -/

theorem rstrip_cons (c : Char) (t : Str) (hc : ¬ pyWS c = true) :
    rstrip (c :: t) = c :: rstrip t := by
  unfold rstrip
  rw [show (c :: t).reverse = t.reverse ++ [c] by simp, List.dropWhile_append]
  by_cases he : (t.reverse.dropWhile pyWS).isEmpty
  · rw [if_pos he]
    have h0 : t.reverse.dropWhile pyWS = [] := by simpa using he
    simp [List.dropWhile_cons, hc, h0]
  · rw [if_neg he]
    simp

theorem lstrip_cons_ws (c : Char) (t : Str) (hc : pyWS c = true) :
    lstrip (c :: t) = lstrip t := by
  simp [lstrip, List.dropWhile_cons, hc]

theorem lstrip_cons_keep (c : Char) (t : Str) (hc : ¬ pyWS c = true) :
    lstrip (c :: t) = c :: t := by
  simp [lstrip, List.dropWhile_cons, hc]

theorem strip_cons_ws (c : Char) (t : Str) (hc : pyWS c = true) :
    strip (c :: t) = strip t := by
  unfold strip
  rw [lstrip_cons_ws c t hc]

theorem strip_cons_keep (c : Char) (t : Str) (hc : ¬ pyWS c = true) :
    strip (c :: t) = c :: rstrip t := by
  unfold strip
  rw [lstrip_cons_keep c t hc, rstrip_cons c t hc]

theorem strip_cons_ne_nil (c : Char) (t : Str) (hc : ¬ pyWS c = true) :
    strip (c :: t) ≠ [] := by
  rw [strip_cons_keep c t hc]
  simp

theorem rstrip_append_ws (s : Str) (c : Char) (hc : pyWS c = true) :
    rstrip (s ++ [c]) = rstrip s := by
  unfold rstrip
  simp [List.dropWhile_cons, hc]

theorem rstrip_len_le (s : Str) : (rstrip s).length ≤ s.length := by
  unfold rstrip
  have := dropWhile_len_le pyWS s.reverse
  simp only [List.length_reverse] at this ⊢
  exact this

theorem lstrip_len_le (s : Str) : (lstrip s).length ≤ s.length :=
  dropWhile_len_le pyWS s

theorem lstrip_eq_self_of_len (s : Str) (h : (lstrip s).length = s.length) :
    lstrip s = s := by
  cases s with
  | nil => rfl
  | cons c t =>
    by_cases hc : pyWS c
    · exfalso
      rw [lstrip_cons_ws c t hc] at h
      have := lstrip_len_le t
      simp only [List.length_cons] at h
      omega
    · exact lstrip_cons_keep c t hc

theorem strip_id_parts {s : Str} (h : strip s = s) :
    lstrip s = s ∧ rstrip s = s := by
  have hlen : (strip s).length = s.length := by rw [h]
  have h1 : (strip s).length ≤ (lstrip s).length := by
    unfold strip
    exact rstrip_len_le (lstrip s)
  have h2 := lstrip_len_le s
  have hls : lstrip s = s := lstrip_eq_self_of_len s (by omega)
  refine ⟨hls, ?_⟩
  have : strip s = rstrip s := by
    unfold strip
    rw [hls]
  rw [← this, h]

theorem strip_id_head_not_ws {c : Char} {t : Str} (h : strip (c :: t) = c :: t) :
    ¬ pyWS c = true := by
  intro hc
  rw [strip_cons_ws c t hc] at h
  have h1 : (strip t).length ≤ t.length := by
    unfold strip
    have := rstrip_len_le (lstrip t)
    have := lstrip_len_le t
    omega
  rw [h] at h1
  simp at h1

theorem strip_cons_keep2 {c : Char} {s : Str} (hc : ¬ pyWS c = true)
    (hs : strip s = s) : strip (c :: s) = c :: s := by
  rw [strip_cons_keep c s hc, (strip_id_parts hs).2]

theorem strip_append_sp {s : Str} (hs : strip s = s) : strip (s ++ [' ']) = s := by
  cases s with
  | nil => decide
  | cons c t =>
    have hc := strip_id_head_not_ws hs
    rw [List.cons_append, strip_cons_keep c _ hc, rstrip_append_ws t ' ' (by decide)]
    have := (strip_id_parts hs).2
    rw [rstrip_cons c t hc] at this
    rw [List.cons_eq_cons.mp this |>.2]

theorem splitCh_ne_nil (c : Char) (s : Str) : splitCh c s ≠ [] := by
  cases s with
  | nil => simp [splitCh]
  | cons d t =>
    rw [splitCh]
    split
    · simp
    · match h : splitCh c t with
      | [] => simp
      | h2 :: r => simp

theorem splitCh_not_mem (c : Char) (s : Str) :
    ∀ p ∈ splitCh c s, c ∉ p := by
  induction s with
  | nil =>
    intro p hp
    simp [splitCh] at hp
    simp [hp]
  | cons d t ih =>
    intro p hp
    rw [splitCh] at hp
    split at hp
    · rcases List.mem_cons.mp hp with h1 | h1
      · simp [h1]
      · exact ih p h1
    · next hd =>
      rcases hm : splitCh c t with _ | ⟨h2, r⟩
      · exact absurd hm (splitCh_ne_nil c t)
      · rw [hm] at hp
        rcases List.mem_cons.mp hp with h1 | h1
        · subst h1
          intro hmem
          rcases List.mem_cons.mp hmem with h2m | h2m
          · exact hd h2m.symm
          · exact ih h2 (by rw [hm]; exact List.mem_cons_self _ _) h2m
        · exact ih p (by rw [hm]; exact List.mem_cons_of_mem _ h1)

theorem joinNL_nil : joinNL [] = [] := rfl

theorem joinNL_single (a : Str) : joinNL [a] = a := by
  simp [joinNL]

theorem joinNL_cons_cons (a b : Str) (t : List Str) :
    joinNL (a :: b :: t) = a ++ '\n' :: joinNL (b :: t) := by
  simp [joinNL, List.intersperse]

theorem joinNL_splitCh (s : Str) : joinNL (splitCh '\n' s) = s := by
  induction s with
  | nil => rfl
  | cons d t ih =>
    rw [splitCh]
    split
    · next hd =>
      subst hd
      rcases hm : splitCh '\n' t with _ | ⟨h2, r⟩
      · exact absurd hm (splitCh_ne_nil _ t)
      · rw [hm] at ih
        rw [joinNL_cons_cons]
        simp [ih]
    · rcases hm : splitCh '\n' t with _ | ⟨h2, r⟩
      · exact absurd hm (splitCh_ne_nil _ t)
      · rw [hm] at ih
        cases r with
        | nil =>
          rw [joinNL_single] at ih ⊢
          simp [ih]
        | cons r0 rr =>
          rw [joinNL_cons_cons] at ih ⊢
          simpa using ih

theorem splitCh_of_not_mem {c : Char} {a : Str} (h : c ∉ a) :
    splitCh c a = [a] := by
  induction a with
  | nil => rfl
  | cons d t ih =>
    rw [splitCh]
    rw [if_neg (by intro he; exact h (he ▸ List.mem_cons_self _ _))]
    rw [ih (fun hm => h (List.mem_cons_of_mem _ hm))]

theorem splitCh_append_cons {c : Char} {a : Str} (b : Str) (h : c ∉ a) :
    splitCh c (a ++ c :: b) = a :: splitCh c b := by
  induction a with
  | nil => simp [splitCh]
  | cons d t ih =>
    simp only [List.cons_append]
    rw [splitCh]
    rw [if_neg (by intro he; exact h (he ▸ List.mem_cons_self _ _))]
    rw [ih (fun hm => h (List.mem_cons_of_mem _ hm))]

theorem splitCh_joinNL : ∀ (ls : List Str), (∀ l ∈ ls, '\n' ∉ l) → ls ≠ [] →
    splitCh '\n' (joinNL ls) = ls := by
  intro ls
  induction ls with
  | nil => intro _ h; exact absurd rfl h
  | cons a t ih =>
    intro hfree _
    cases t with
    | nil =>
      rw [joinNL_single]
      exact splitCh_of_not_mem (hfree a (List.mem_cons_self _ _))
    | cons b r =>
      rw [joinNL_cons_cons, splitCh_append_cons _ (hfree a (List.mem_cons_self _ _))]
      rw [ih (fun l hl => hfree l (List.mem_cons_of_mem _ hl)) (by simp)]

theorem joinNL_ne_nil : ∀ (ls : List Str), ls ≠ [] → ls.getLast? ≠ some [] →
    joinNL ls ≠ [] := by
  intro ls
  induction ls with
  | nil => intro h; exact absurd rfl h
  | cons a t ih =>
    intro _ hlast
    cases t with
    | nil =>
      rw [joinNL_single]
      intro he
      exact hlast (by simp [he])
    | cons b r =>
      rw [joinNL_cons_cons]
      simp

theorem getLast?_ne_of_not_mem {c : Char} {a : Str} (ha : a ≠ []) (h : c ∉ a) :
    a.getLast? ≠ some c := by
  intro he
  exact h (List.mem_of_mem_getLast? (Option.mem_def.mpr he))

theorem joinNL_getLast?_ne_nl : ∀ (ls : List Str), ls ≠ [] →
    ls.getLast? ≠ some [] → (∀ l ∈ ls, '\n' ∉ l) →
    (joinNL ls).getLast? ≠ some '\n' := by
  intro ls
  induction ls with
  | nil => intro h; exact absurd rfl h
  | cons a t ih =>
    intro _ hlast hfree
    cases t with
    | nil =>
      rw [joinNL_single]
      exact getLast?_ne_of_not_mem (fun he => hlast (by simp [he]))
        (hfree a (List.mem_cons_self _ _))
    | cons b r =>
      rw [joinNL_cons_cons]
      have hne : joinNL (b :: r) ≠ [] :=
        joinNL_ne_nil _ (by simp) (by simpa using hlast)
      have hlast2 := ih (by simp) (by simpa using hlast)
        (fun l hl => hfree l (List.mem_cons_of_mem _ hl))
      rcases hJ : joinNL (b :: r) with _ | ⟨x, xs⟩
      · exact absurd hJ hne
      · rw [hJ] at hlast2
        rw [List.getLast?_append, List.getLast?_cons_cons]
        rcases hg : (x :: xs).getLast? with _ | ⟨c⟩
        · exact absurd (List.getLast_mem_getLast? (l := x :: xs) (by simp))
            (by simp [hg])
        · rw [hg] at hlast2
          intro he
          rw [show Option.or (some c) a.getLast? = some c from rfl] at he
          exact hlast2 he

theorem pySplitlines_joinNL (ls : List Str) (hne : ls ≠ [])
    (hlast : ls.getLast? ≠ some []) (hfree : ∀ l ∈ ls, '\n' ∉ l) :
    pySplitlines (joinNL ls) = ls := by
  unfold pySplitlines
  rw [if_neg (joinNL_ne_nil ls hne hlast)]
  rw [if_neg (joinNL_getLast?_ne_nl ls hne hlast hfree)]
  exact splitCh_joinNL ls hfree hne

theorem alk_upsert_self {κ α : Type} [DecidableEq κ] (m : List (κ × α)) (k : κ)
    (v : α) : alk (upsert m k v) k = some v := by
  induction m with
  | nil => simp [upsert, alk]
  | cons e t ih =>
    obtain ⟨k0, v0⟩ := e
    rw [upsert]
    split
    · next he => rw [alk, if_pos he]
    · next he => rw [alk, if_neg he]; exact ih

theorem upsert_upsert {κ α : Type} [DecidableEq κ] (m : List (κ × α)) (k : κ)
    (v w : α) : upsert (upsert m k v) k w = upsert m k w := by
  induction m with
  | nil => simp [upsert]
  | cons e t ih =>
    obtain ⟨k0, v0⟩ := e
    rw [upsert]
    split
    · next he => rw [upsert, if_pos he, upsert, if_pos he]
    · next he => rw [upsert, if_neg he, upsert, if_neg he, ih]

theorem upsert_alk_self {κ α : Type} [DecidableEq κ] {m : List (κ × α)} {k : κ}
    {w : α} (h : alk m k = some w) : upsert m k w = m := by
  induction m with
  | nil => simp [alk] at h
  | cons e t ih =>
    obtain ⟨k0, v0⟩ := e
    rw [alk] at h
    rw [upsert]
    split
    · next he =>
      rw [if_pos he] at h
      injection h with h2
      rw [h2]
    · next he =>
      rw [if_neg he] at h
      rw [ih h]

theorem upsert_of_alk_none {κ α : Type} [DecidableEq κ] {m : List (κ × α)} {k : κ}
    (h : alk m k = none) (v : α) : upsert m k v = m ++ [(k, v)] := by
  induction m with
  | nil => simp [upsert]
  | cons e t ih =>
    obtain ⟨k0, v0⟩ := e
    rw [alk] at h
    rw [upsert]
    split
    · next he => rw [if_pos he] at h; exact absurd h (by simp)
    · next he =>
      rw [if_neg he] at h
      rw [ih h]
      simp

theorem alk_append_none {κ α : Type} [DecidableEq κ] {m : List (κ × α)} {k : κ}
    (h : alk m k = none) (m2 : List (κ × α)) : alk (m ++ m2) k = alk m2 k := by
  induction m with
  | nil => simp
  | cons e t ih =>
    obtain ⟨k0, v0⟩ := e
    rw [alk] at h
    rw [List.cons_append, alk]
    split
    · next he => rw [if_pos he] at h; exact absurd h (by simp)
    · next he => rw [if_neg he] at h; exact ih h

theorem alk_none_of_not_mem {κ α : Type} [DecidableEq κ] {m : List (κ × α)} {k : κ}
    (h : k ∉ m.map Prod.fst) : alk m k = none := by
  induction m with
  | nil => rfl
  | cons e t ih =>
    obtain ⟨k0, v0⟩ := e
    rw [alk]
    rw [if_neg (by intro he; exact h (by simp [he]))]
    exact ih (by intro hm; exact h (by simp [hm]))

/-- Folding `upsert` over entries, as the parser does section by section. -/
def foldUp (acc : List (Str × Str)) (m : List (Str × Str)) : List (Str × Str) :=
  m.foldl (fun a e => upsert a e.1 e.2) acc

theorem foldUp_nil (acc : List (Str × Str)) : foldUp acc [] = acc := rfl

theorem foldUp_cons (acc : List (Str × Str)) (e : Str × Str) (m : List (Str × Str)) :
    foldUp acc (e :: m) = foldUp (upsert acc e.1 e.2) m := rfl

theorem foldUp_eq_append : ∀ (m acc : List (Str × Str)),
    (m.map Prod.fst).Nodup → (∀ k ∈ m.map Prod.fst, alk acc k = none) →
    foldUp acc m = acc ++ m := by
  intro m
  induction m with
  | nil => intro acc _ _; simp [foldUp]
  | cons e t ih =>
    intro acc hnd hnone
    obtain ⟨k, v⟩ := e
    rw [foldUp_cons]
    rw [upsert_of_alk_none (hnone k (by simp)) v]
    rw [ih _ (by simpa using hnd.of_cons) ?_]
    · simp
    · intro k2 hk2
      have hne : k2 ≠ k := by
        intro he
        subst he
        exact (List.nodup_cons.mp (by simpa using hnd)).1 hk2
      rw [alk_append_none (hnone k2 (by simp [hk2]))]
      rw [alk, if_neg (fun he => hne he.symm)]
      rfl

theorem rstrip_append_right {b : Str} (a : Str) (h : rstrip b ≠ []) :
    rstrip (a ++ b) = a ++ rstrip b := by
  unfold rstrip at h ⊢
  rw [List.reverse_append, List.dropWhile_append]
  rw [if_neg (by simpa using h)]
  simp

theorem prun_append : ∀ (a b : List Str) (i : Nat) (st : PSt),
    prun i (a ++ b) st = match prun i a st with
      | Except.ok st2 => prun (i + a.length) b st2
      | Except.error e => Except.error e := by
  intro a
  induction a with
  | nil => intro b i st; simp [prun]
  | cons l t ih =>
    intro b i st
    rw [List.cons_append, prun, prun]
    cases pstep i l st with
    | error e => rfl
    | ok st2 =>
      show prun (i + 1) (t ++ b) st2 = (match prun (i + 1) t st2 with
        | Except.ok st3 => prun (i + (l :: t).length) b st3
        | Except.error e => Except.error e)
      rw [ih]
      cases prun (i + 1) t st2 with
      | error e => rfl
      | ok st3 =>
        simp only [List.length_cons]
        rw [show i + 1 + t.length = i + (t.length + 1) by omega]

theorem split1Sp_no_sp {s : Str} (h : ' ' ∉ s) : split1Sp s = (s, none) := by
  induction s with
  | nil => rfl
  | cons c t ih =>
    rw [split1Sp]
    rw [if_neg (by intro he; exact h (he ▸ List.mem_cons_self _ _))]
    rw [ih (fun hm => h (List.mem_cons_of_mem _ hm))]

theorem split1Sp_append {a : Str} (b : Str) (h : ' ' ∉ a) :
    split1Sp (a ++ ' ' :: b) = (a, some b) := by
  induction a with
  | nil => simp [split1Sp]
  | cons c t ih =>
    rw [List.cons_append, split1Sp]
    rw [if_neg (by intro he; exact h (he ▸ List.mem_cons_self _ _))]
    rw [ih (fun hm => h (List.mem_cons_of_mem _ hm))]

theorem takeWhile_no_gt {k : Str} (h : '>' ∉ k) (r : Str) :
    (k ++ '>' :: r).takeWhile (fun c => c ≠ '>') = k := by
  induction k with
  | nil => simp [List.takeWhile]
  | cons c t ih =>
    have hc : c ≠ '>' := fun he => h (by rw [he]; exact List.mem_cons_self _ _)
    rw [List.cons_append, List.takeWhile_cons]
    rw [if_pos (by simpa using hc)]
    rw [ih (fun hm => h (List.mem_cons_of_mem _ hm))]

theorem flatten_nl_map : ∀ (ps : List Str), ps ≠ [] →
    (ps.map (fun p => '\n' :: p)).flatten = '\n' :: joinNL ps := by
  intro ps
  induction ps with
  | nil => intro h; exact absurd rfl h
  | cons p t ih =>
    intro _
    cases t with
    | nil => simp [joinNL_single]
    | cons q r =>
      have h2 := ih (by simp)
      rw [joinNL_cons_cons]
      simp only [List.map_cons, List.flatten_cons, List.cons_append,
        List.append_assoc, List.cons.injEq, true_and] at h2 ⊢
      simp [h2]

theorem joinNL_cons {t : List Str} (a : Str) (h : t ≠ []) :
    joinNL (a :: t) = a ++ '\n' :: joinNL t := by
  cases t with
  | nil => exact absurd rfl h
  | cons b r => exact joinNL_cons_cons a b r

theorem joinNL_append {a b : List Str} (ha : a ≠ []) (hb : b ≠ []) :
    joinNL (a ++ b) = joinNL a ++ '\n' :: joinNL b := by
  induction a with
  | nil => exact absurd rfl ha
  | cons x t ih =>
    cases t with
    | nil =>
      rw [List.cons_append, List.nil_append, joinNL_single, joinNL_cons x hb]
    | cons y r =>
      rw [List.cons_append, joinNL_cons x (show (y :: r) ++ b ≠ [] by simp),
        ih (by simp), joinNL_cons x (show (y : Str) :: r ≠ [] by simp)]
      simp

theorem serEntryLines_ne_nil (k v : Str) : serEntryLines k v ≠ [] := by
  unfold serEntryLines
  split <;> simp

theorem serLines_cons (e : Str × Str) (m : List (Str × Str)) :
    serLines (e :: m) = serEntryLines e.1 e.2 ++ serLines m := by
  simp [serLines]

theorem serLines_ne_nil {m : List (Str × Str)} (h : m ≠ []) :
    serLines m ≠ [] := by
  cases m with
  | nil => exact absurd rfl h
  | cons e t =>
    rw [serLines_cons]
    intro he
    exact serEntryLines_ne_nil e.1 e.2 (List.append_eq_nil.mp he).1

/-- The serialized output of `toText`, decomposed into its list of lines. -/
def toTextLines (D : Doc) : List Str :=
  [hdrMETA] ++ serLines D.metadata ++
    (if D.defaults = [] then [] else [[], hdrDEF] ++ serLines D.defaults) ++
    ([[], hdrCONT] ++ splitCh '\n' D.content)

theorem toText_eq_lines (D : Doc) (hm : D.metadata ≠ []) :
    toText D = joinNL (toTextLines D) := by
  unfold toText toTextLines
  have hsm := serLines_ne_nil hm
  have hsp := splitCh_ne_nil '\n' D.content
  by_cases hd : D.defaults = []
  · rw [if_pos hd, if_pos hd]
    simp only [List.nil_append, List.append_nil]
    rw [show [hdrMETA, serSection D.metadata] ++ ['\n' :: hdrCONT, D.content] =
      hdrMETA :: serSection D.metadata :: ('\n' :: hdrCONT) :: [D.content] by simp]
    rw [joinNL_cons_cons, joinNL_cons_cons, joinNL_cons_cons, joinNL_single]
    rw [show [hdrMETA] ++ serLines D.metadata ++ ([[], hdrCONT] ++
        splitCh '\n' D.content) = hdrMETA :: (serLines D.metadata ++
        ([] :: hdrCONT :: splitCh '\n' D.content)) by simp]
    rw [joinNL_cons _ (fun h => hsm (List.append_eq_nil.mp h).1)]
    rw [joinNL_append hsm (by simp), joinNL_cons_cons, joinNL_cons _ hsp,
      joinNL_splitCh]
    simp [serSection]
  · rw [if_neg hd, if_neg hd]
    have hsd := serLines_ne_nil hd
    rw [show [hdrMETA, serSection D.metadata] ++ ['\n' :: hdrDEF,
        serSection D.defaults] ++ ['\n' :: hdrCONT, D.content] =
      hdrMETA :: serSection D.metadata :: ('\n' :: hdrDEF) ::
        serSection D.defaults :: ('\n' :: hdrCONT) :: [D.content] by simp]
    rw [joinNL_cons_cons, joinNL_cons_cons, joinNL_cons_cons, joinNL_cons_cons,
      joinNL_cons_cons, joinNL_single]
    rw [show [hdrMETA] ++ serLines D.metadata ++ ([[], hdrDEF] ++
        serLines D.defaults) ++ ([[], hdrCONT] ++ splitCh '\n' D.content) =
      hdrMETA :: (serLines D.metadata ++ ([] :: hdrDEF ::
        (serLines D.defaults ++ ([] :: hdrCONT :: splitCh '\n' D.content))))
      by simp]
    rw [joinNL_cons _ (fun h => hsm (List.append_eq_nil.mp h).1)]
    rw [joinNL_append hsm (by simp), joinNL_cons_cons,
      joinNL_cons _ (fun h => hsd (List.append_eq_nil.mp h).1)]
    rw [joinNL_append hsd (by simp), joinNL_cons_cons, joinNL_cons _ hsp,
      joinNL_splitCh]
    simp [serSection]

/-- A multiline continuation piece that survives reparsing unchanged. -/
def wfPiece (p : Str) : Prop :=
  p ≠ [] ∧ strip p = p ∧ p.head? ≠ some '@' ∧ headerFull? p = none ∧
    isCommentWrapped p = false

instance : DecidablePred wfPiece := fun p => by unfold wfPiece; infer_instance

/-- A metadata/defaults entry whose serialized form reparses to itself. -/
def WFentry (isMeta : Bool) (e : Str × Str) : Prop :=
  strip e.1 = e.1 ∧ '>' ∉ e.1 ∧ '\n' ∉ e.1 ∧
    (if '\n' ∈ e.2 then
      e.1 ≠ [] ∧ (splitCh '\n' e.2).head? = some [] ∧
        (splitCh '\n' e.2).tail ≠ [] ∧ ∀ p ∈ (splitCh '\n' e.2).tail, wfPiece p
    else strip e.2 = e.2 ∧ '>' ∉ e.2 ∧ ' ' ∉ e.1 ∧ (isMeta = true → e.2 ≠ []))

instance (b : Bool) : DecidablePred (WFentry b) := fun e => by
  unfold WFentry; infer_instance

/-- A content line that survives reparsing unchanged. -/
def wfContentLine (l : Str) : Prop :=
  l ≠ [] ∧ strip l = l ∧ headerFull? l = none ∧ commentSubEnd l = l ∧
    isCommentWrapped l = false

instance : DecidablePred wfContentLine := fun l => by
  unfold wfContentLine; infer_instance

/-- Well-formedness of a document for the serialize/reparse round trip. -/
def WF (D : Doc) : Prop :=
  (D.metadata.map Prod.fst).Nodup ∧ (D.defaults.map Prod.fst).Nodup ∧
    (alk D.metadata fvKey).isSome = true ∧
    (∀ e ∈ D.metadata, WFentry true e) ∧
    (∀ e ∈ D.defaults, WFentry false e) ∧
    (∀ l ∈ splitCh '\n' D.content, wfContentLine l)

instance (D : Doc) : Decidable (WF D) := by unfold WF; infer_instance

theorem setMap_key (st : PSt) (b : Bool) (m : List (Str × Str)) :
    (setMap st b m).key = st.key := by
  cases b <;> simp [setMap]

theorem getMap_setMap (st : PSt) (b : Bool) (m : List (Str × Str)) :
    getMap (setMap st b m) b = m := by
  cases b <;> simp [setMap, getMap]

theorem setMap_setMap (st : PSt) (b : Bool) (m1 m2 : List (Str × Str)) :
    setMap (setMap st b m1) b m2 = setMap st b m2 := by
  cases b <;> simp [setMap]

theorem setMap_key_update (st : PSt) (b : Bool) (m : List (Str × Str))
    (x : Option Str) :
    setMap { st with key := x } b m = { setMap st b m with key := x } := by
  cases b <;> simp [setMap]

theorem setMap_getMap_self (st : PSt) (b : Bool) :
    setMap st b (getMap st b) = st := by
  cases b <;> simp [setMap, getMap]

theorem headerFull?_ne {l : Str} (h : l.head? ≠ some '[') :
    headerFull? l = none := by
  unfold headerFull?
  split
  · exact absurd rfl h
  · rfl

theorem getMap_key_update (st : PSt) (b : Bool) (x : Option Str) :
    getMap { st with key := x } b = getMap st b := by
  cases b <;> simp [getMap]

theorem isCommentWrapped_at {c : Char} (t : Str) (h : c ≠ '(') :
    isCommentWrapped (c :: t) = false := by
  unfold isCommentWrapped
  rw [List.isPrefixOf]
  simp [h]
  intro he
  exact absurd he.symm h

theorem pstep_blank (i : Nat) (st : PSt) : pstep i [] st = Except.ok st := rfl

theorem pstep_two_sp (i : Nat) (st : PSt) :
    pstep i [' ', ' '] st = Except.ok st := rfl

theorem pstep_hdrMETA (i : Nat) (st : PSt) :
    pstep i hdrMETA st =
      Except.ok { st with sec := some Sec.metadata, key := none } := rfl

theorem pstep_hdrDEF (i : Nat) (st : PSt) :
    pstep i hdrDEF st =
      Except.ok { st with sec := some Sec.defaults, key := none } := rfl

theorem pstep_hdrCONT (i : Nat) (st : PSt) :
    pstep i hdrCONT st =
      Except.ok { st with sec := some Sec.content, key := none } := rfl

theorem pstep_metaDef {st : PSt} {b : Bool} (i : Nat) (raw : Str)
    (hsec : st.sec = some (if b then Sec.metadata else Sec.defaults))
    (hne : strip raw ≠ []) (hcw : isCommentWrapped (strip raw) = false)
    (hhdr : headerFull? (strip raw) = none) :
    pstep i raw st = metaDefStep b i (strip raw) st := by
  unfold pstep
  rw [if_neg (by simp [hne, hcw])]
  rw [hhdr, hsec]
  cases b <;> rfl

theorem pstep_content {st : PSt} (i : Nat) (raw : Str)
    (hsec : st.sec = some Sec.content)
    (hne : strip raw ≠ []) (hcw : isCommentWrapped (strip raw) = false)
    (hhdr : headerFull? (strip raw) = none)
    (hkeep : strip (commentSubEnd (strip raw)) ≠ []) :
    pstep i raw st = Except.ok
      { st with cont := st.cont ++ [strip (commentSubEnd (strip raw))] } := by
  unfold pstep
  rw [if_neg (by simp [hne, hcw])]
  rw [hhdr, hsec]
  simp only [if_neg hkeep]

theorem metaDefStep_single {b : Bool} (i : Nat) (st : PSt) (k v : Str)
    (hk : ' ' ∉ k) (hgt : '>' ∉ k) (hgtv : '>' ∉ v)
    (hkst : strip k = k) (hvst : strip v = v) (hv : v ≠ []) :
    metaDefStep b i ('@' :: (k ++ ' ' :: v)) st =
      Except.ok (setMap st b (upsert (getMap st b) k v)) := by
  unfold metaDefStep
  rw [if_pos (by simp)]
  rw [if_neg (by
    simp only [List.mem_cons, List.mem_append]
    push_neg
    exact ⟨by decide, hgt, by decide, hgtv⟩)]
  have hsp : split1Sp (('@' :: (k ++ ' ' :: v)).drop 1) = (k, some v) := by
    simp only [List.drop_one, List.tail_cons]
    exact split1Sp_append v hk
  rw [show slVal ('@' :: (k ++ ' ' :: v)) = v by
    unfold slVal; rw [hsp]; exact hvst]
  rw [show slKey ('@' :: (k ++ ' ' :: v)) = k by
    unfold slKey; rw [hsp]; exact hkst]
  rw [if_neg (by simp [hv])]

theorem metaDefStep_single_empty (i : Nat) (st : PSt) (k : Str)
    (hk : ' ' ∉ k) (hgt : '>' ∉ k) (hkst : strip k = k) :
    metaDefStep false i ('@' :: k) st =
      Except.ok (setMap st false (upsert (getMap st false) k [])) := by
  unfold metaDefStep
  rw [if_pos (by simp)]
  rw [if_neg (by
    simp only [List.mem_cons]
    push_neg
    exact ⟨by decide, hgt⟩)]
  have hsp : split1Sp (('@' :: k).drop 1) = (k, none) := by
    simp only [List.drop_one, List.tail_cons]
    exact split1Sp_no_sp hk
  rw [show slVal ('@' :: k) = [] by unfold slVal; rw [hsp]]
  rw [show slKey ('@' :: k) = k by unfold slKey; rw [hsp]; exact hkst]
  rw [if_neg (by simp)]

theorem metaDefStep_opener {b : Bool} (i : Nat) (st : PSt) (k : Str)
    (hgt : '>' ∉ k) (hkst : strip k = k) :
    metaDefStep b i ('@' :: (k ++ [' ', '>'])) st =
      Except.ok (setMap { st with key := some k } b
        (upsert (getMap st b) k [])) := by
  unfold metaDefStep
  rw [if_pos (by simp)]
  rw [if_pos (by simp)]
  have hml : mlKey ('@' :: (k ++ [' ', '>'])) = k := by
    unfold mlKey
    rw [List.takeWhile_cons, if_pos (by simp)]
    rw [show k ++ [' ', '>'] = (k ++ [' ']) ++ '>' :: [] by simp]
    rw [takeWhile_no_gt (by
      intro hm
      rcases List.mem_append.mp hm with h1 | h1
      · exact hgt h1
      · simp at h1)]
    simp only [List.drop_one, List.tail_cons]
    exact strip_append_sp hkst
  rw [hml]

theorem metaDefStep_contn {b : Bool} (i : Nat) (st : PSt) (p k w : Str)
    (hp : p.head? ≠ some '@') (hkey : st.key = some k) (hk : k ≠ [])
    (halk : alk (getMap st b) k = some w) :
    metaDefStep b i p st =
      Except.ok (setMap st b (upsert (getMap st b) k (w ++ '\n' :: p))) := by
  unfold metaDefStep
  rw [if_neg hp, hkey]
  simp only [if_neg hk]
  rw [halk]
  rfl

theorem strip_opener (k : Str) (hkst : strip k = k) :
    strip ('@' :: (k ++ [' ', '>'])) = '@' :: (k ++ [' ', '>']) := by
  rw [strip_cons_keep _ _ (by decide)]
  rw [rstrip_append_right k (b := [' ', '>']) (by decide)]
  rw [show rstrip [' ', '>'] = [' ', '>'] from by decide]

theorem strip_single {k v : Str} (hkst : strip k = k) (hvst : strip v = v)
    (hv : v ≠ []) :
    strip ('@' :: (k ++ ' ' :: v)) = '@' :: (k ++ ' ' :: v) := by
  rw [strip_cons_keep _ _ (by decide)]
  rw [show k ++ ' ' :: v = (k ++ [' ']) ++ v by simp]
  rw [rstrip_append_right (k ++ [' '])
    (by rw [(strip_id_parts hvst).2]; exact hv)]
  rw [(strip_id_parts hvst).2]

theorem strip_single_emptyv {k : Str} (hkst : strip k = k) :
    strip ('@' :: (k ++ [' '])) = '@' :: k := by
  rw [strip_cons_keep _ _ (by decide)]
  rw [rstrip_append_ws k ' ' (by decide)]
  rw [(strip_id_parts hkst).2]

theorem pst_key_eta (st : PSt) : { st with key := st.key } = st := rfl

theorem prun_conts {b : Bool} : ∀ (ps : List Str), (∀ p ∈ ps, wfPiece p) →
    ∀ (i : Nat) (st : PSt) (k w : Str),
    st.sec = some (if b then Sec.metadata else Sec.defaults) →
    st.key = some k → k ≠ [] → alk (getMap st b) k = some w →
    prun i (ps.map (fun p => ' ' :: ' ' :: p)) st =
      Except.ok (setMap st b (upsert (getMap st b) k
        (w ++ (ps.map (fun p => '\n' :: p)).flatten))) := by
  intro ps
  induction ps with
  | nil =>
    intro _ i st k w hsec hkey hk halk
    simp only [List.map_nil, List.flatten_nil, List.append_nil]
    rw [upsert_alk_self halk, setMap_getMap_self]
    rfl
  | cons p ps ih =>
    intro hwf i st k w hsec hkey hk halk
    obtain ⟨hpne, hpst, hpat, hphdr, hpcw⟩ := hwf p (List.mem_cons_self _ _)
    have hstrip : strip (' ' :: ' ' :: p) = p := by
      rw [strip_cons_ws _ _ (by decide), strip_cons_ws _ _ (by decide), hpst]
    simp only [List.map_cons, List.flatten_cons]
    rw [prun]
    rw [pstep_metaDef (b := b) i _ hsec (by rw [hstrip]; exact hpne)
      (by rw [hstrip]; exact hpcw) (by rw [hstrip]; exact hphdr)]
    rw [hstrip]
    rw [metaDefStep_contn i st p k w hpat hkey hk halk]
    show prun (i + 1) (ps.map (fun p => ' ' :: ' ' :: p))
      (setMap st b (upsert (getMap st b) k (w ++ '\n' :: p))) = _
    rw [ih (fun q hq => hwf q (List.mem_cons_of_mem _ hq)) (i + 1) _ k
      (w ++ '\n' :: p) (by rw [setMap_sec]; exact hsec)
      (by rw [setMap_key]; exact hkey) hk
      (by rw [getMap_setMap]; exact alk_upsert_self _ _ _)]
    rw [getMap_setMap, setMap_setMap, upsert_upsert]
    simp [List.append_assoc]

theorem prun_entry {b : Bool} (i : Nat) (st : PSt) (k v : Str)
    (hwf : WFentry b (k, v))
    (hsec : st.sec = some (if b then Sec.metadata else Sec.defaults)) :
    ∃ k2, prun i (serEntryLines k v) st =
      Except.ok (setMap { st with key := k2 } b
        (upsert (getMap st b) k v)) := by
  obtain ⟨hkst, hgt, hnl, hrest⟩ := hwf
  by_cases hv : '\n' ∈ v
  · rw [if_pos hv] at hrest
    obtain ⟨hk, hhead, htail, hps⟩ := hrest
    rcases hsp : splitCh '\n' v with _ | ⟨p0, ps⟩
    · exact absurd hsp (splitCh_ne_nil _ v)
    rw [hsp] at hhead htail hps
    have hp0 : p0 = [] := by simpa using hhead
    subst hp0
    have hpsne : ps ≠ [] := by simpa using htail
    have hwps : ∀ p ∈ ps, wfPiece p := by
      intro p hp
      exact hps p (by simpa using hp)
    refine ⟨some k, ?_⟩
    rw [serEntryLines, if_pos hv, hsp]
    simp only [List.map_cons]
    rw [prun]
    have hso := strip_opener k hkst
    rw [pstep_metaDef (b := b) i _ hsec (by rw [hso]; simp)
      (by rw [hso]; exact isCommentWrapped_at _ (by decide))
      (by rw [hso]; exact headerFull?_ne (by simp))]
    rw [hso, metaDefStep_opener i st k hgt hkst]
    show prun (i + 1) ((' ' :: ' ' :: []) :: ps.map (fun p => ' ' :: ' ' :: p))
      (setMap { st with key := some k } b (upsert (getMap st b) k [])) = _
    rw [prun, pstep_two_sp]
    show prun (i + 1 + 1) (ps.map (fun p => ' ' :: ' ' :: p))
      (setMap { st with key := some k } b (upsert (getMap st b) k [])) = _
    rw [prun_conts ps hwps (i + 1 + 1) _ k []
      (by rw [setMap_sec]; exact hsec)
      (by rw [setMap_key])
      hk (by rw [getMap_setMap]; exact alk_upsert_self _ _ _)]
    rw [getMap_setMap, setMap_setMap, upsert_upsert]
    rw [flatten_nl_map ps hpsne]
    have hvval : '\n' :: joinNL ps = v := by
      have h2 := joinNL_splitCh v
      rw [hsp, joinNL_cons _ hpsne] at h2
      simpa using h2
    rw [show ([] : Str) ++ '\n' :: joinNL ps = v by
      rw [List.nil_append]; exact hvval]
  · rw [if_neg hv] at hrest
    obtain ⟨hvst, hgtv, hksp, hmeta⟩ := hrest
    rw [serEntryLines, if_neg hv]
    by_cases hve : v = []
    · subst hve
      cases b with
      | true => exact absurd rfl (hmeta rfl)
      | false =>
        refine ⟨st.key, ?_⟩
        rw [pst_key_eta, prun]
        have hss : strip ('@' :: (k ++ ' ' :: [])) = '@' :: k :=
          strip_single_emptyv hkst
        rw [pstep_metaDef (b := false) i _ hsec (by rw [hss]; simp)
          (by rw [hss]; exact isCommentWrapped_at _ (by decide))
          (by rw [hss]; exact headerFull?_ne (by simp))]
        rw [hss, metaDefStep_single_empty i st k hksp hgt hkst]
        rfl
    · refine ⟨st.key, ?_⟩
      rw [pst_key_eta, prun]
      have hss := strip_single hkst hvst hve
      rw [pstep_metaDef (b := b) i _ hsec (by rw [hss]; simp)
        (by rw [hss]; exact isCommentWrapped_at _ (by decide))
        (by rw [hss]; exact headerFull?_ne (by simp))]
      rw [hss, metaDefStep_single i st k v hksp hgt hgtv hkst hvst hve]
      rfl

theorem prun_serLines {b : Bool} : ∀ (m : List (Str × Str)),
    (∀ e ∈ m, WFentry b e) → ∀ (i : Nat) (st : PSt),
    st.sec = some (if b then Sec.metadata else Sec.defaults) →
    ∃ k2, prun i (serLines m) st =
      Except.ok (setMap { st with key := k2 } b (foldUp (getMap st b) m)) := by
  intro m
  induction m with
  | nil =>
    intro _ i st _
    refine ⟨st.key, ?_⟩
    rw [pst_key_eta, foldUp_nil, setMap_getMap_self]
    rfl
  | cons e t ih =>
    intro hwf i st hsec
    rw [serLines_cons, prun_append]
    obtain ⟨k2, hk2⟩ := prun_entry i st e.1 e.2
      (hwf e (List.mem_cons_self _ _)) hsec
    rw [hk2]
    obtain ⟨k3, hk3⟩ := ih (fun x hx => hwf x (List.mem_cons_of_mem _ hx))
      (i + (serEntryLines e.1 e.2).length)
      (setMap { st with key := k2 } b (upsert (getMap st b) e.1 e.2))
      (by rw [setMap_sec]; exact hsec)
    refine ⟨k3, ?_⟩
    show prun (i + (serEntryLines e.1 e.2).length) (serLines t)
      (setMap { st with key := k2 } b (upsert (getMap st b) e.1 e.2)) = _
    rw [hk3]
    rw [getMap_setMap, foldUp_cons]
    cases b <;> simp [setMap, getMap]

theorem prun_content : ∀ (ls : List Str), (∀ l ∈ ls, wfContentLine l) →
    ∀ (i : Nat) (st : PSt), st.sec = some Sec.content →
    prun i ls st = Except.ok { st with cont := st.cont ++ ls } := by
  intro ls
  induction ls with
  | nil =>
    intro _ i st _
    simp only [List.append_nil]
    rfl
  | cons l t ih =>
    intro hwf i st hsec
    obtain ⟨hlne, hlst, hlhdr, hlcse, hlcw⟩ := hwf l (List.mem_cons_self _ _)
    rw [prun]
    rw [pstep_content i l hsec (by rw [hlst]; exact hlne)
      (by rw [hlst]; exact hlcw) (by rw [hlst]; exact hlhdr)
      (by rw [hlst, hlcse, hlst]; exact hlne)]
    show prun (i + 1) t
      { st with cont := st.cont ++ [strip (commentSubEnd (strip l))] } = _
    rw [hlst, hlcse, hlst]
    rw [ih (fun x hx => hwf x (List.mem_cons_of_mem _ hx)) (i + 1)
      { st with cont := st.cont ++ [l] } hsec]
    simp

theorem posScanP_cons_none {x : Str} (hh : headerFull? (strip x) = none)
    (i : Nat) (ls : List Str) (acc : List (Sec × Nat)) :
    posScanP i (x :: ls) acc = posScanP (i + 1) ls acc := by
  simp only [posScanP]
  by_cases hb : strip x = [] ∨ (strip x).head? = some '#'
  · rw [if_pos hb]
  · rw [if_neg hb, hh]

theorem posScanP_cons_hdr {x : Str} {s : Sec}
    (hno : ¬(strip x = [] ∨ (strip x).head? = some '#'))
    (hh : headerFull? (strip x) = some s)
    (i : Nat) (ls : List Str) (acc : List (Sec × Nat)) :
    posScanP i (x :: ls) acc = posScanP (i + 1) ls (upsert acc s i) := by
  simp only [posScanP]
  rw [if_neg hno, hh]

theorem posScanP_inert : ∀ (ls : List Str),
    (∀ l ∈ ls, headerFull? (strip l) = none) →
    ∀ (i : Nat) (acc : List (Sec × Nat)), posScanP i ls acc = acc := by
  intro ls
  induction ls with
  | nil => intro _ i acc; rfl
  | cons x t ih =>
    intro h i acc
    rw [posScanP_cons_none (h x (List.mem_cons_self _ _))]
    exact ih (fun l hl => h l (List.mem_cons_of_mem _ hl)) (i + 1) acc

theorem posScanP_append : ∀ (a b : List Str) (i : Nat)
    (acc : List (Sec × Nat)),
    posScanP i (a ++ b) acc = posScanP (i + a.length) b (posScanP i a acc) := by
  intro a
  induction a with
  | nil => intro b i acc; simp [posScanP]
  | cons x t ih =>
    intro b i acc
    rw [List.cons_append]
    rcases hh : headerFull? (strip x) with _ | s
    · rw [posScanP_cons_none hh, posScanP_cons_none hh, ih]
      simp only [List.length_cons]
      rw [show i + 1 + t.length = i + (t.length + 1) by omega]
    · have hb : ¬(strip x = [] ∨ (strip x).head? = some '#') := by
        rintro (h1 | h1)
        · rw [h1] at hh
          rw [show headerFull? ([] : Str) = none from rfl] at hh
          exact Option.noConfusion hh
        · rw [headerFull?_ne (by rw [h1]; simp)] at hh
          exact Option.noConfusion hh
      rw [posScanP_cons_hdr hb hh, posScanP_cons_hdr hb hh, ih]
      simp only [List.length_cons]
      rw [show i + 1 + t.length = i + (t.length + 1) by omega]

theorem serEntry_hdr_none {b : Bool} {k v : Str} (hwf : WFentry b (k, v)) :
    ∀ l ∈ serEntryLines k v, headerFull? (strip l) = none := by
  obtain ⟨hkst, hgt, hnl, hrest⟩ := hwf
  intro l hl
  unfold serEntryLines at hl
  by_cases hv : '\n' ∈ v
  · rw [if_pos hv] at hl
    rw [if_pos hv] at hrest
    obtain ⟨hk, hhead, htail, hps⟩ := hrest
    rcases List.mem_cons.mp hl with h1 | h1
    · subst h1
      rw [strip_opener k hkst]
      exact headerFull?_ne (by simp)
    · obtain ⟨p, hp, hpe⟩ := List.mem_map.mp h1
      subst hpe
      rcases hsp : splitCh '\n' v with _ | ⟨p0, ps⟩
      · exact absurd hsp (splitCh_ne_nil _ v)
      rw [hsp] at hp hhead hps
      have hp0 : p0 = [] := by simpa using hhead
      subst hp0
      rcases List.mem_cons.mp hp with h2 | h2
      · subst h2
        rfl
      · obtain ⟨hpne, hpst, hpat, hphdr, hpcw⟩ := hps p (by simpa using h2)
        rw [strip_cons_ws _ _ (by decide), strip_cons_ws _ _ (by decide), hpst]
        exact hphdr
  · rw [if_neg hv] at hl
    rw [if_neg hv] at hrest
    obtain ⟨hvst, hgtv, hksp, hmeta⟩ := hrest
    rcases List.mem_cons.mp hl with h1 | h1
    · subst h1
      by_cases hve : v = []
      · subst hve
        rw [show k ++ ' ' :: [] = k ++ [' '] from rfl, strip_single_emptyv hkst]
        exact headerFull?_ne (by simp)
      · rw [strip_single hkst hvst hve]
        exact headerFull?_ne (by simp)
    · simp at h1

theorem serLines_hdr_none {b : Bool} {m : List (Str × Str)}
    (hwf : ∀ e ∈ m, WFentry b e) :
    ∀ l ∈ serLines m, headerFull? (strip l) = none := by
  intro l hl
  unfold serLines at hl
  obtain ⟨le, hle, hmem⟩ := List.mem_flatten.mp hl
  obtain ⟨e, he, hee⟩ := List.mem_map.mp hle
  subst hee
  exact serEntry_hdr_none (by
    have := hwf e he
    exact this) l hmem

theorem serEntry_nl_free {b : Bool} {k v : Str} (hwf : WFentry b (k, v)) :
    ∀ l ∈ serEntryLines k v, '\n' ∉ l := by
  obtain ⟨hkst, hgt, hnl, hrest⟩ := hwf
  intro l hl
  unfold serEntryLines at hl
  by_cases hv : '\n' ∈ v
  · rw [if_pos hv] at hl
    rcases List.mem_cons.mp hl with h1 | h1
    · subst h1
      intro hm
      rcases List.mem_cons.mp hm with h2 | h2
      · exact absurd h2 (by decide)
      · rcases List.mem_append.mp h2 with h3 | h3
        · exact hnl h3
        · simp at h3
    · obtain ⟨p, hp, hpe⟩ := List.mem_map.mp h1
      subst hpe
      have hfree := splitCh_not_mem '\n' v p hp
      intro hm
      rcases List.mem_cons.mp hm with h2 | h2
      · exact absurd h2 (by decide)
      · rcases List.mem_cons.mp h2 with h3 | h3
        · exact absurd h3 (by decide)
        · exact hfree h3
  · rw [if_neg hv] at hl
    rcases List.mem_cons.mp hl with h1 | h1
    · subst h1
      intro hm
      rcases List.mem_cons.mp hm with h2 | h2
      · exact absurd h2 (by decide)
      · rcases List.mem_append.mp h2 with h3 | h3
        · exact hnl h3
        · rcases List.mem_cons.mp h3 with h4 | h4
          · exact absurd h4 (by decide)
          · exact hv h4
    · simp at h1

theorem serLines_nl_free {b : Bool} {m : List (Str × Str)}
    (hwf : ∀ e ∈ m, WFentry b e) :
    ∀ l ∈ serLines m, '\n' ∉ l := by
  intro l hl
  unfold serLines at hl
  obtain ⟨le, hle, hmem⟩ := List.mem_flatten.mp hl
  obtain ⟨e, he, hee⟩ := List.mem_map.mp hle
  subst hee
  exact serEntry_nl_free (hwf e he) l hmem

theorem orderBad_toTextLines (D : Doc)
    (hwfm : ∀ e ∈ D.metadata, WFentry true e)
    (hwfd : ∀ e ∈ D.defaults, WFentry false e)
    (hwfc : ∀ l ∈ splitCh '\n' D.content, wfContentLine l) :
    orderBad (sectionPositionsP (toTextLines D)) = false := by
  have hcinert : ∀ l ∈ splitCh '\n' D.content,
      headerFull? (strip l) = none := by
    intro l hl
    obtain ⟨_, hst, hh, _, _⟩ := hwfc l hl
    rw [hst]
    exact hh
  unfold sectionPositionsP toTextLines
  by_cases hd : D.defaults = []
  · rw [if_pos hd]
    rw [show [hdrMETA] ++ serLines D.metadata ++ [] ++
        ([[], hdrCONT] ++ splitCh '\n' D.content) =
      hdrMETA :: (serLines D.metadata ++
        ([] :: hdrCONT :: splitCh '\n' D.content)) by simp]
    rw [posScanP_cons_hdr (x := hdrMETA) (s := Sec.metadata)
      (by decide) (by decide)]
    rw [posScanP_append]
    rw [posScanP_inert _ (serLines_hdr_none hwfm)]
    rw [posScanP_cons_none (x := []) (by rfl)]
    rw [posScanP_cons_hdr (x := hdrCONT) (s := Sec.content)
      (by decide) (by decide)]
    rw [posScanP_inert _ hcinert]
    simp +decide [orderBad, alk, upsert]
  · rw [if_neg hd]
    rw [show [hdrMETA] ++ serLines D.metadata ++
        ([[], hdrDEF] ++ serLines D.defaults) ++
        ([[], hdrCONT] ++ splitCh '\n' D.content) =
      hdrMETA :: (serLines D.metadata ++ ([] :: hdrDEF ::
        (serLines D.defaults ++
          ([] :: hdrCONT :: splitCh '\n' D.content)))) by simp]
    rw [posScanP_cons_hdr (x := hdrMETA) (s := Sec.metadata)
      (by decide) (by decide)]
    rw [posScanP_append]
    rw [posScanP_inert _ (serLines_hdr_none hwfm)]
    rw [posScanP_cons_none (x := []) (by rfl)]
    rw [posScanP_cons_hdr (x := hdrDEF) (s := Sec.defaults)
      (by decide) (by decide)]
    rw [posScanP_append]
    rw [posScanP_inert _ (serLines_hdr_none hwfd)]
    rw [posScanP_cons_none (x := []) (by rfl)]
    rw [posScanP_cons_hdr (x := hdrCONT) (s := Sec.content)
      (by decide) (by decide)]
    rw [posScanP_inert _ hcinert]
    simp +decide [orderBad, alk, upsert]
    omega

theorem prun_cons_ok {i : Nat} {l : Str} {st st2 : PSt}
    (h : pstep i l st = Except.ok st2) (ls : List Str) :
    prun i (l :: ls) st = prun (i + 1) ls st2 := by
  rw [prun, h]

theorem parse_toText (D : Doc) (hwf : WF D) :
    parse (toText D) = Except.ok D := by
  obtain ⟨hndm, hndd, hfv, hwfm, hwfd, hwfc⟩ := hwf
  have hmne : D.metadata ≠ [] := by
    intro he
    rw [he] at hfv
    simp [alk] at hfv
  have hcne := splitCh_ne_nil '\n' D.content
  have hshape : toTextLines D = hdrMETA :: (serLines D.metadata ++
      ((if D.defaults = [] then [] else [[], hdrDEF] ++ serLines D.defaults) ++
        ([[], hdrCONT] ++ splitCh '\n' D.content))) := by
    unfold toTextLines
    simp [List.append_assoc]
  have hlastC : ∃ x, (splitCh '\n' D.content).getLast? = some x ∧ x ≠ [] := by
    rcases hC : splitCh '\n' D.content with _ | ⟨c0, cr⟩
    · exact absurd hC hcne
    · refine ⟨(c0 :: cr).getLast (by simp), ?_, ?_⟩
      · exact Option.mem_def.mp (List.getLast_mem_getLast? (by simp))
      · have hmem : (c0 :: cr).getLast (by simp) ∈ splitCh '\n' D.content := by
          rw [hC]
          exact List.getLast_mem _
        exact (hwfc _ hmem).1
  obtain ⟨xl, hxl, hxlne⟩ := hlastC
  have hne2 : toTextLines D ≠ [] := by
    rw [hshape]
    simp
  have hlast : (toTextLines D).getLast? ≠ some [] := by
    unfold toTextLines
    rw [List.getLast?_append, List.getLast?_append, hxl]
    intro he
    exact hxlne (Option.some.inj he)
  have hfree : ∀ l ∈ toTextLines D, '\n' ∉ l := by
    intro l hl
    unfold toTextLines at hl
    rcases List.mem_append.mp hl with h1 | h1
    · rcases List.mem_append.mp h1 with h2 | h2
      · rcases List.mem_append.mp h2 with h3 | h3
        · rw [List.mem_singleton] at h3
          subst h3
          decide
        · exact serLines_nl_free hwfm l h3
      · by_cases hd : D.defaults = []
        · rw [if_pos hd] at h2
          simp at h2
        · rw [if_neg hd] at h2
          rcases List.mem_append.mp h2 with h3 | h3
          · rcases List.mem_cons.mp h3 with h4 | h4
            · subst h4
              simp
            · rw [List.mem_singleton] at h4
              subst h4
              decide
          · exact serLines_nl_free hwfd l h3
    · rcases List.mem_append.mp h1 with h2 | h2
      · rcases List.mem_cons.mp h2 with h3 | h3
        · subst h3
          simp
        · rw [List.mem_singleton] at h3
          subst h3
          decide
      · exact splitCh_not_mem '\n' D.content l h2
  have hstrip : strip (joinNL (toTextLines D)) ≠ [] := by
    rw [hshape, joinNL_cons _ (by
      intro he
      exact serLines_ne_nil hmne (List.append_eq_nil.mp he).1)]
    exact strip_cons_ne_nil '[' _ (by decide)
  have hrun : prun 0 (toTextLines D) st0 = Except.ok
      ⟨some Sec.content, none, D.metadata, D.defaults,
        splitCh '\n' D.content⟩ := by
    rw [hshape, prun, pstep_hdrMETA]
    show prun 1 (serLines D.metadata ++
      ((if D.defaults = [] then [] else [[], hdrDEF] ++ serLines D.defaults) ++
        ([[], hdrCONT] ++ splitCh '\n' D.content)))
      ⟨some Sec.metadata, none, [], [], []⟩ = _
    rw [prun_append]
    obtain ⟨ka, hka⟩ := prun_serLines (b := true) D.metadata hwfm 1
      ⟨some Sec.metadata, none, [], [], []⟩ rfl
    rw [hka]
    have hfm : foldUp (getMap (⟨some Sec.metadata, none, [], [], []⟩ : PSt)
        true) D.metadata = D.metadata := by
      rw [show getMap (⟨some Sec.metadata, none, [], [], []⟩ : PSt) true = []
        from rfl]
      rw [foldUp_eq_append D.metadata [] hndm (fun k _ => rfl)]
      simp
    rw [hfm]
    by_cases hd : D.defaults = []
    · rw [if_pos hd]
      show prun (1 + (serLines D.metadata).length)
        ([] :: hdrCONT :: splitCh '\n' D.content)
        ⟨some Sec.metadata, ka, D.metadata, [], []⟩ = _
      rw [prun_cons_ok (pstep_blank _ _) _, prun_cons_ok (pstep_hdrCONT _ _) _]
      show prun (1 + (serLines D.metadata).length + 1 + 1)
        (splitCh '\n' D.content)
        ⟨some Sec.content, none, D.metadata, [], []⟩ = _
      rw [prun_content _ hwfc _ _ rfl]
      rw [hd]
      rfl
    · rw [if_neg hd]
      show prun (1 + (serLines D.metadata).length)
        ([] :: hdrDEF :: (serLines D.defaults ++
          ([[], hdrCONT] ++ splitCh '\n' D.content)))
        ⟨some Sec.metadata, ka, D.metadata, [], []⟩ = _
      rw [prun_cons_ok (pstep_blank _ _) _, prun_cons_ok (pstep_hdrDEF _ _) _]
      show prun (1 + (serLines D.metadata).length + 1 + 1)
        (serLines D.defaults ++ ([[], hdrCONT] ++ splitCh '\n' D.content))
        ⟨some Sec.defaults, none, D.metadata, [], []⟩ = _
      rw [prun_append]
      obtain ⟨kb, hkb⟩ := prun_serLines (b := false) D.defaults hwfd
        (1 + (serLines D.metadata).length + 1 + 1)
        ⟨some Sec.defaults, none, D.metadata, [], []⟩ rfl
      rw [hkb]
      have hfd : foldUp (getMap
          (⟨some Sec.defaults, none, D.metadata, [], []⟩ : PSt) false)
          D.defaults = D.defaults := by
        rw [show getMap (⟨some Sec.defaults, none, D.metadata, [], []⟩ : PSt)
          false = [] from rfl]
        rw [foldUp_eq_append D.defaults [] hndd (fun k _ => rfl)]
        simp
      rw [hfd]
      show prun (1 + (serLines D.metadata).length + 1 + 1 +
          (serLines D.defaults).length)
        ([] :: hdrCONT :: splitCh '\n' D.content)
        ⟨some Sec.defaults, kb, D.metadata, D.defaults, []⟩ = _
      rw [prun_cons_ok (pstep_blank _ _) _, prun_cons_ok (pstep_hdrCONT _ _) _]
      show prun (1 + (serLines D.metadata).length + 1 + 1 +
          (serLines D.defaults).length + 1 + 1)
        (splitCh '\n' D.content)
        ⟨some Sec.content, none, D.metadata, D.defaults, []⟩ = _
      rw [prun_content _ hwfc _ _ rfl]
      rfl
  rw [toText_eq_lines D hmne]
  unfold parse
  rw [pySplitlines_joinNL _ hne2 hlast hfree]
  rw [if_neg hstrip]
  rw [if_neg (by
    rw [orderBad_toTextLines D hwfm hwfd hwfc]
    exact Bool.false_ne_true)]
  rw [hrun]
  show (if splitCh '\n' D.content = [] then
      Except.error contentMissingMsg
    else if (alk D.metadata fvKey).isNone then Except.error fvMissingMsg
    else Except.ok ⟨D.metadata, D.defaults,
      joinNL (splitCh '\n' D.content)⟩) = Except.ok D
  rw [if_neg hcne]
  rcases halk : alk D.metadata fvKey with _ | v
  · rw [halk] at hfv
    simp at hfv
  · rw [if_neg (by simp)]
    rw [joinNL_splitCh]

/-- Claim C1 (as corrected): for every document `D` produced by parsing
valid text that moreover satisfies the well-formedness conditions `WF`
(stripped, `>`-free keys and values, non-empty metadata values, stripped
non-empty continuation and content lines free of headers, comment
wrappers and end-of-line comment spans, distinct keys, and a
`format_version` entry), parsing the output of `toText D` yields a
document whose metadata, defaults and content equal `D`'s exactly.
Without `WF` the round trip can fail; see the counterexample. -/
theorem C1_roundtrip (text : Str) (D : Doc)
    (hp : parse text = Except.ok D) (hwf : WF D) :
    parse (toText D) = Except.ok D :=
  parse_toText D hwf

/-- Witness for `C1_roundtrip`: a parsed, well-formed document with
metadata, a multiline default and a placeholder round-trips exactly. -/
theorem C1_witness :
    parse ("[METADATA]\n@format_version 1.0\n[DEFAULTS]\n@name >\n  \n  world\n[CONTENT]\nhello {name}").toList =
      Except.ok ⟨[((r"format_version").toList, (r"1.0").toList)],
        [((r"name").toList, '\n' :: (r"world").toList)],
        (r"hello {name}").toList⟩ ∧
    WF ⟨[((r"format_version").toList, (r"1.0").toList)],
        [((r"name").toList, '\n' :: (r"world").toList)],
        (r"hello {name}").toList⟩ ∧
    parse (toText ⟨[((r"format_version").toList, (r"1.0").toList)],
        [((r"name").toList, '\n' :: (r"world").toList)],
        (r"hello {name}").toList⟩) =
      Except.ok ⟨[((r"format_version").toList, (r"1.0").toList)],
        [((r"name").toList, '\n' :: (r"world").toList)],
        (r"hello {name}").toList⟩ :=
  ⟨by decide, by decide,
    C1_roundtrip ("[METADATA]\n@format_version 1.0\n[DEFAULTS]\n@name >\n  \n  world\n[CONTENT]\nhello {name}").toList
      ⟨[((r"format_version").toList, (r"1.0").toList)],
        [((r"name").toList, '\n' :: (r"world").toList)],
        (r"hello {name}").toList⟩ (by decide) (by decide)⟩

/-- Claim C1 (counterexample): the unrestricted claim is false.  The text
`"[METADATA]\n@format_version >\n[CONTENT]\nhi"` parses successfully to a
document whose `format_version` value is the empty string, but parsing
its `toText` serialization fails with the empty-metadata-value error for
line 2, so the round trip does not hold for every parsed document. -/
theorem C1_counterexample :
    parse ("[METADATA]\n@format_version >\n[CONTENT]\nhi").toList =
      Except.ok ⟨[(fvKey, [])], [], ['h', 'i']⟩ ∧
    parse (toText ⟨[(fvKey, [])], [], ['h', 'i']⟩) =
      Except.error (emptyMetaMsg 1 fvKey) := by
  exact ⟨by decide, by decide⟩
